import Mathlib

/-!
# A verification of the MARC21 / ISO 2709 codec

This file embeds the repository's binary-record codec:

* the decoder `MarcParser` (`parse`, `parseRecord`, `processField`), and
* the encoder (`buildField`, `buildRecord` of `scripts/generate_dummy_marc.js`),

as executable Lean functions and proves the specification's claims about them.

Modelling conventions, chosen to match JavaScript semantics:

* A byte buffer (`ArrayBuffer`) is a `List Nat` of byte values.
* A JavaScript string is a `List Nat` of UTF-16 code units; `TextDecoder`
  is modelled by `utf8Decode` (WHATWG UTF-8 decoding with U+FFFD replacement,
  astral code points becoming surrogate pairs), and `substring`/`split`/`[]`
  become `List.take`/`List.drop`/`jsSplit`/`jsIndex` on code-unit lists.
* A JavaScript number that may be `NaN` (the result of `parseInt`) is an
  `Option Int`, `none` playing the role of `NaN`; `NaN`-propagation and the
  always-false comparisons with `NaN` are written out at each use site.
* `new Uint8Array(buffer, off, len)` throws a `RangeError` when the view does
  not fit in the buffer; throwing is modelled by `Except Unit`, and
  `ToIndex` (which maps `NaN` to `0` and throws on negatives) by `toIndex`.
-/

namespace Marc

/-! ## JavaScript string and number primitives -/

/-- The code units that `parseInt` skips as leading whitespace
(ECMA-262 `StrWhiteSpaceChar`: WhiteSpace and LineTerminator). -/
def jsWhitespace (c : Nat) : Bool :=
  c == 9 || c == 10 || c == 11 || c == 12 || c == 13 || c == 32 ||
  c == 0xA0 || c == 0x1680 || (0x2000 ≤ c && c ≤ 0x200A) ||
  c == 0x2028 || c == 0x2029 || c == 0x202F || c == 0x205F ||
  c == 0x3000 || c == 0xFEFF

/-- ASCII decimal digit code unit. -/
def isDigitB (c : Nat) : Bool := 48 ≤ c && c ≤ 57

/-- Value of a most-significant-first list of ASCII digit code units. -/
def digitsVal (l : List Nat) : Nat :=
  l.foldl (fun a c => 10 * a + (c - 48)) 0

/-- The digit-prefix part of `parseInt(s, 10)`: the longest prefix of ASCII
digits, `none` (`NaN`) when it is empty. -/
def jsParseIntDigits (s : List Nat) : Option Int :=
  let ds := s.takeWhile isDigitB
  if ds.isEmpty then none else some (digitsVal ds : Int)

/-- `parseInt(s, 10)` on a code-unit list: skip whitespace, optional sign
(`+` is 43, `-` is 45), then the longest ASCII-digit prefix; `none` models
`NaN`. -/
def jsParseInt (s : List Nat) : Option Int :=
  match s.dropWhile jsWhitespace with
  | [] => none
  | c :: rest =>
    if c = 43 then jsParseIntDigits rest
    else if c = 45 then (jsParseIntDigits rest).map (fun v => -v)
    else jsParseIntDigits (c :: rest)

/-- `NaN`-propagating addition of JS numbers. -/
def jsAddOpt (a b : Option Int) : Option Int :=
  match a, b with
  | some x, some y => some (x + y)
  | _, _ => none

/-- `NaN`-propagating subtraction of a constant. -/
def jsSubOpt (a : Option Int) (n : Int) : Option Int :=
  a.map (fun x => x - n)

/-- `x < c` on a JS number: false when `x` is `NaN`. -/
def jsLtB (a : Option Int) (c : Int) : Bool :=
  match a with
  | none => false
  | some v => v < c

/-- ECMAScript `ToIndex`: `NaN` becomes `0`, negative values throw. -/
def toIndex : Option Int → Except Unit Nat
  | none => .ok 0
  | some i => if i < 0 then .error () else .ok i.toNat

/-- `new Uint8Array(buffer, byteOffset, length)`: validates that the view
fits inside the buffer (else a `RangeError`) and returns the viewed bytes. -/
def jsUint8Array (buffer : List Nat) (off len : Option Int) : Except Unit (List Nat) :=
  match toIndex off with
  | .error e => .error e
  | .ok o =>
    if buffer.length < o then .error () else
    match toIndex len with
    | .error e => .error e
    | .ok l =>
      if buffer.length < o + l then .error () else .ok ((buffer.drop o).take l)

/-- `arr[i]` on a typed array with a JS number index: `undefined` (here
`none`) for `NaN`, negative or out-of-range indices. -/
def jsIndex (arr : List Nat) (i : Option Int) : Option Nat :=
  match i with
  | none => none
  | some k => if k < 0 then none else arr[k.toNat]?

/-- UTF-16 code units of a Unicode code point (surrogate pair when astral). -/
def utf16OfCodePoint (c : Nat) : List Nat :=
  if c < 0x10000 then [c]
  else [0xD800 + (c - 0x10000) / 0x400, 0xDC00 + (c - 0x10000) % 0x400]

/-- WHATWG UTF-8 decoding with replacement, as performed by
`new TextDecoder('utf-8').decode`: bytes in, UTF-16 code units out.
Invalid sequences produce U+FFFD; after an invalid continuation byte the
offending byte is reconsidered as the start of a new sequence. The fuel
argument (one unit per consumed byte suffices) only makes the recursion
structural; `utf8Decode` supplies `l.length`. -/
def utf8DecodeAux : Nat → List Nat → List Nat
  | 0, _ => []
  | _ + 1, [] => []
  | fuel + 1, b :: rest =>
    if b < 0x80 then b :: utf8DecodeAux fuel rest
    else if 0xC2 ≤ b && b ≤ 0xDF then
      match rest with
      | [] => [0xFFFD]
      | b1 :: rest1 =>
        if 0x80 ≤ b1 && b1 ≤ 0xBF then
          ((b - 0xC0) * 0x40 + (b1 - 0x80)) :: utf8DecodeAux fuel rest1
        else 0xFFFD :: utf8DecodeAux fuel (b1 :: rest1)
    else if 0xE0 ≤ b && b ≤ 0xEF then
      match rest with
      | [] => [0xFFFD]
      | b1 :: rest1 =>
        let lo1 : Nat := if b = 0xE0 then 0xA0 else 0x80
        let hi1 : Nat := if b = 0xED then 0x9F else 0xBF
        if lo1 ≤ b1 && b1 ≤ hi1 then
          match rest1 with
          | [] => [0xFFFD]
          | b2 :: rest2 =>
            if 0x80 ≤ b2 && b2 ≤ 0xBF then
              ((b - 0xE0) * 0x1000 + (b1 - 0x80) * 0x40 + (b2 - 0x80)) ::
                utf8DecodeAux fuel rest2
            else 0xFFFD :: utf8DecodeAux fuel (b2 :: rest2)
        else 0xFFFD :: utf8DecodeAux fuel (b1 :: rest1)
    else if 0xF0 ≤ b && b ≤ 0xF4 then
      match rest with
      | [] => [0xFFFD]
      | b1 :: rest1 =>
        let lo1 : Nat := if b = 0xF0 then 0x90 else 0x80
        let hi1 : Nat := if b = 0xF4 then 0x8F else 0xBF
        if lo1 ≤ b1 && b1 ≤ hi1 then
          match rest1 with
          | [] => [0xFFFD]
          | b2 :: rest2 =>
            if 0x80 ≤ b2 && b2 ≤ 0xBF then
              match rest2 with
              | [] => [0xFFFD]
              | b3 :: rest3 =>
                if 0x80 ≤ b3 && b3 ≤ 0xBF then
                  utf16OfCodePoint
                    ((b - 0xF0) * 0x40000 + (b1 - 0x80) * 0x1000 +
                      (b2 - 0x80) * 0x40 + (b3 - 0x80)) ++ utf8DecodeAux fuel rest3
                else 0xFFFD :: utf8DecodeAux fuel (b3 :: rest3)
            else 0xFFFD :: utf8DecodeAux fuel (b2 :: rest2)
        else 0xFFFD :: utf8DecodeAux fuel (b1 :: rest1)
    else 0xFFFD :: utf8DecodeAux fuel rest

/-- `new TextDecoder('utf-8').decode` on a byte list. -/
def utf8Decode (l : List Nat) : List Nat := utf8DecodeAux l.length l

/-- `s.split(sep)` for a one-code-unit separator: `"".split` gives `[""]`. -/
def jsSplit (sep : Nat) : List Nat → List (List Nat)
  | [] => [[]]
  | c :: rest =>
    if c = sep then [] :: jsSplit sep rest
    else
      match jsSplit sep rest with
      | ch :: chs => (c :: ch) :: chs
      | [] => [[c]]

/-! ## The decoder (`MarcParser` of `src/unnamed/part_000`) -/

/-- One 12-byte directory entry as produced by the directory scan:
the 3-code-unit tag and the `parseInt`-parsed length and start (maybe `NaN`). -/
structure DirEntry where
  tag : List Nat
  length : Option Int
  start : Option Int
  deriving Repr, DecidableEq

/-- A field before `processField`: tag, text-decoded content, and the
`parseInt(tag) < 10` classification flag. -/
structure RawField where
  tag : List Nat
  value : List Nat
  isControlField : Bool
  deriving Repr, DecidableEq

/-- A decoded subfield: `code` is a one-code-unit string, `data` the rest. -/
structure Subfield where
  code : List Nat
  data : List Nat
  deriving Repr, DecidableEq

/-- A decoded field: a control field (raw text) or a data field
(two one-code-unit indicator strings and ordered subfields). -/
inductive ParsedField where
  | control (tag text : List Nat)
  | data (tag ind1 ind2 : List Nat) (subfields : List Subfield)
  deriving Repr, DecidableEq

/-- A decoded record: the 24-byte leader as text plus the field list. -/
structure ParsedRecord where
  leader : List Nat
  fields : List ParsedField
  deriving Repr, DecidableEq

/-- The directory scan of `parseRecord`, from byte 24 in 12-byte strides:
stops at the loop bound `directoryEnd`, on fewer than 12 remaining bytes, or
at a field-terminator byte (0x1E); otherwise records tag (3 code units),
length (`parseInt` of units 3..6) and start (`parseInt` of units 7..11).
The fuel argument (one unit per stride; `dirEnd + 1` suffices since every
stride advances by 12) only makes the recursion structural. -/
def scanDirAux (buffer : List Nat) (dirEnd : Nat) : Nat → Nat → List DirEntry
  | 0, _ => []
  | fuel + 1, i =>
    if i < dirEnd then
      if buffer.length < i + 12 then []
      else if (buffer.drop i).headD 0 = 30 then []
      else
        let entryStr := utf8Decode ((buffer.drop i).take 12)
        { tag := entryStr.take 3
          length := jsParseInt ((entryStr.drop 3).take 4)
          start := jsParseInt ((entryStr.drop 7).take 5) } ::
          scanDirAux buffer dirEnd fuel (i + 12)
    else []

/-- The directory scan with the JS loop bound `directoryEnd = baseAddress - 1`,
a possibly-`NaN`, possibly-negative number: `i < NaN` and `i < negative` are
false, so those bounds scan nothing (for a `Nat` index `i`,
`(i : Int) < d ↔ i < d.toNat`). -/
def scanDirectory (buffer : List Nat) (dirEnd : Option Int) (i : Nat) : List DirEntry :=
  match dirEnd with
  | none => []
  | some d => scanDirAux buffer d.toNat (d.toNat + 1) i

/-- The body of the `directoryEntries.forEach` of `parseRecord`: slice the
field's bytes at `baseAddress + start` (a throwing `Uint8Array` view), drop a
trailing field terminator from the view, text-decode, and classify by
`parseInt(tag) < 10`. -/
def extractRawField (buffer : List Nat) (base : Option Int) (e : DirEntry) :
    Except Unit RawField :=
  let fieldStart := jsAddOpt base e.start
  match jsUint8Array buffer fieldStart e.length with
  | .error err => .error err
  | .ok fieldBytes =>
    let effLen : Option Int :=
      if jsIndex fieldBytes (jsSubOpt e.length 1) = some 30 then jsSubOpt e.length 1
      else e.length
    match jsUint8Array buffer fieldStart effLen with
    | .error err => .error err
    | .ok contentBytes =>
      .ok { tag := e.tag
            value := utf8Decode contentBytes
            isControlField := jsLtB (jsParseInt e.tag) 10 }

/-- The `directoryEntries.forEach` of `parseRecord`: extract every entry's
field in order; a thrown `RangeError` aborts the whole record. -/
def extractAll (buffer : List Nat) (base : Option Int) :
    List DirEntry → Except Unit (List RawField)
  | [] => .ok []
  | e :: es =>
    match extractRawField buffer base e with
    | .error err => .error err
    | .ok f =>
      match extractAll buffer base es with
      | .error err => .error err
      | .ok fs => .ok (f :: fs)

/-- The chunk loop of `processField`: skip a leading empty chunk (index 0),
and turn every other non-empty chunk into a subfield. -/
def processChunks : Nat → List (List Nat) → List Subfield
  | _, [] => []
  | i, c :: rest =>
    if i = 0 ∧ c = [] then processChunks (i + 1) rest
    else if 0 < c.length then
      { code := c.take 1, data := c.drop 1 } :: processChunks (i + 1) rest
    else processChunks (i + 1) rest

/-- The subfield decomposition of a data field's payload after the two
indicator code units: split on the subfield delimiter 0x1F and process. -/
def subfieldsOf (raw : List Nat) : List Subfield :=
  processChunks 0 (jsSplit 31 raw)

/-- `MarcParser.processField`: a control field exposes its raw text; a data
field takes units 0 and 1 as indicators and splits the rest into subfields. -/
def processField (f : RawField) : ParsedField :=
  if f.isControlField then .control f.tag f.value
  else
    .data f.tag (f.value.take 1) ((f.value.drop 1).take 1)
      (subfieldsOf (f.value.drop 2))

/-- `MarcParser.parseRecord`: decode the 24-byte leader (a throwing view),
read `baseAddress` from leader units 12..16, scan the directory up to
`baseAddress - 1`, extract every entry's field and process it. -/
def parseRecord (buffer : List Nat) : Except Unit ParsedRecord :=
  match jsUint8Array buffer (some 0) (some 24) with
  | .error e => .error e
  | .ok leaderBytes =>
    let leader := utf8Decode leaderBytes
    let baseAddress := jsParseInt ((leader.drop 12).take 5)
    let entries := scanDirectory buffer (jsSubOpt baseAddress 1) 24
    match extractAll buffer baseAddress entries with
    | .error e => .error e
    | .ok rawFields => .ok { leader := leader, fields := rawFields.map processField }

/-- The `while` loop of `MarcParser.parse`, with explicit fuel (each
iteration consumes one unit; `marcParse` supplies enough for any buffer):
stop below 5 remaining bytes, view the 24-byte leader (throwing), parse its
first 5 code units as the record length, stop on `NaN`, a non-positive
length, or a record extending past the end; otherwise parse the record's
slice and continue behind it. -/
def parseLoop (buffer : List Nat) : Nat → Nat → Except Unit (List ParsedRecord)
  | _, 0 => .ok []
  | offset, fuel + 1 =>
    if offset < buffer.length then
      if buffer.length < offset + 5 then .ok []
      else
        match jsUint8Array buffer (some offset) (some 24) with
        | .error e => .error e
        | .ok leaderBytes =>
          let leaderStr := utf8Decode leaderBytes
          match jsParseInt (leaderStr.take 5) with
          | none => .ok []
          | some L =>
            if L ≤ 0 then .ok []
            else if (buffer.length : Int) < offset + L then .ok []
            else
              let recordBuffer := (buffer.drop offset).take L.toNat
              match parseRecord recordBuffer with
              | .error e => .error e
              | .ok r =>
                match parseLoop buffer (offset + L.toNat) fuel with
                | .error e => .error e
                | .ok rs => .ok (r :: rs)
    else .ok []

/-- `MarcParser.parse`: scan the whole buffer from offset 0. The fuel
`buffer.length + 1` is always sufficient because every iteration advances
the offset by a positive record length (see the termination theorem). -/
def marcParse (buffer : List Nat) : Except Unit (List ParsedRecord) :=
  parseLoop buffer 0 (buffer.length + 1)

/-! ## The encoder (`scripts/generate_dummy_marc.js`) -/

/-- Input to `buildField` for one subfield: the one-character code and the
value string (printable strings are modelled as their byte lists). -/
structure SubfieldInput where
  code : Nat
  value : List Nat
  deriving Repr, DecidableEq

/-- Input to `buildField`: for a control-field tag the `subfields` argument
is a raw string, for a data-field tag it is the subfield list (the script's
`parseInt(tag) >= 10` dispatch; well-formedness ties the constructor to the
tag's numeric value). -/
inductive FieldInput where
  | control (tag text : List Nat)
  | data (tag : List Nat) (ind1 ind2 : Nat) (subs : List SubfieldInput)
  deriving Repr, DecidableEq

/-- The tag of a `FieldInput`. -/
def FieldInput.tag : FieldInput → List Nat
  | .control t _ => t
  | .data t _ _ _ => t

/-- `buildField`'s result: the tag and the field's content bytes. -/
structure BuiltField where
  tag : List Nat
  content : List Nat
  deriving Repr, DecidableEq

/-- `buildField`: a data field is `ind1 ++ ind2 ++ (0x1F ++ code ++ value)*`
plus the field terminator 0x1E; a control field is its raw text plus the
terminator. -/
def buildField : FieldInput → BuiltField
  | .control t text => { tag := t, content := text ++ [30] }
  | .data t i1 i2 subs =>
      { tag := t
        content := i1 :: i2 :: ((subs.flatMap fun s => 31 :: s.code :: s.value) ++ [30]) }

/-- Little-endian base-10 digits with explicit fuel (so that the kernel can
evaluate it on literals); `natDigits n n` equals `Nat.digits 10 n`. -/
def natDigits : Nat → Nat → List Nat
  | 0, _ => []
  | _ + 1, 0 => []
  | fuel + 1, n + 1 => ((n + 1) % 10) :: natDigits fuel ((n + 1) / 10)

/-- Decimal rendering of a natural number (JS `String(n)`), as ASCII bytes. -/
def natToString (n : Nat) : List Nat :=
  if n = 0 then [48] else ((natDigits n n).reverse).map (· + 48)

/-- `String.prototype.padStart(w, '0')`: left-pad with zeros, never truncate. -/
def padStart (w : Nat) (s : List Nat) : List Nat :=
  List.replicate (w - s.length) 48 ++ s

/-- One 12-byte directory entry of `buildRecord`: tag, 4-digit zero-padded
content length, 5-digit zero-padded running offset. -/
def dirEntry (f : BuiltField) (off : Nat) : List Nat :=
  f.tag ++ padStart 4 (natToString f.content.length) ++ padStart 5 (natToString off)

/-- The second `forEach` of `buildRecord`: directory entries with the
cumulative data offset. -/
def buildDirectory : List BuiltField → Nat → List Nat
  | [], _ => []
  | f :: fs, off => dirEntry f off ++ buildDirectory fs (off + f.content.length)

/-- `buildRecord`: leader (24 bytes when lengths fit their widths) ++
directory ++ directory terminator ++ data ++ record terminator, with
`baseAddress = 24 + |directory|` and `totalLength = baseAddress + |data| + 1`. -/
def buildRecord (fields : List BuiltField) : List Nat :=
  let data := fields.flatMap (·.content)
  let directory := buildDirectory fields 0 ++ [30]
  let baseAddress := 24 + directory.length
  let totalLength := baseAddress + data.length + 1
  let leader :=
    padStart 5 (natToString totalLength) ++ [110, 97, 109, 32, 97, 50, 50] ++
      padStart 5 (natToString baseAddress) ++ [32, 97, 32, 52, 53, 48, 48]
  leader ++ directory ++ data ++ [29]

/-! ## Well-formed encoder inputs and their expected decodings -/

/-- Printable ASCII byte (0x20–0x7E); in particular not one of the three
delimiter bytes 0x1D/0x1E/0x1F. -/
def printableB (b : Nat) : Prop := 32 ≤ b ∧ b ≤ 126

/-- ASCII decimal digit byte. -/
def isDigit (b : Nat) : Prop := 48 ≤ b ∧ b ≤ 57

/-- Numeric value of an all-digit tag. -/
def tagNum (t : List Nat) : Nat := digitsVal t

/-- The content of a built field before the trailing field terminator. -/
def contentCore : FieldInput → List Nat
  | .control _ text => text
  | .data _ i1 i2 subs => i1 :: i2 :: (subs.flatMap fun s => 31 :: s.code :: s.value)

/-- A well-formed `buildField` input: a 3-digit tag whose numeric value
matches the control/data kind, printable indicator, subfield-code and
subfield-data characters, and an encoded content shorter than 10,000 bytes
(so its directory length fits in 4 digits). -/
def wfInput : FieldInput → Prop
  | .control t text =>
      t.length = 3 ∧ (∀ b ∈ t, isDigit b) ∧ tagNum t < 10 ∧
      text.length + 1 < 10000
  | .data t i1 i2 subs =>
      t.length = 3 ∧ (∀ b ∈ t, isDigit b) ∧ 10 ≤ tagNum t ∧
      printableB i1 ∧ printableB i2 ∧
      (∀ s ∈ subs, printableB s.code ∧ ∀ b ∈ s.value, printableB b) ∧
      (i1 :: i2 :: ((subs.flatMap fun s => 31 :: s.code :: s.value) ++ [30])).length < 10000

/-- The base address `buildRecord` computes when every directory entry takes
its nominal 12 bytes: leader + directory entries + directory terminator. -/
def baseLen (bfs : List BuiltField) : Nat :=
  24 + (12 * bfs.length + 1)

/-- The total record length `buildRecord` computes when every directory
entry takes its nominal 12 bytes. -/
def totalLen (bfs : List BuiltField) : Nat :=
  baseLen bfs + (bfs.flatMap (·.content)).length + 1

/-- A well-formed `buildRecord` input: well-formed fields and a total
record length that fits in the leader's 5-digit width. -/
def wfRecord (fs : List FieldInput) : Prop :=
  (∀ f ∈ fs, wfInput f) ∧ totalLen (fs.map buildField) < 100000

/-- The decoding the round-trip is expected to produce for one field:
a control field keeps its tag and text-decoded payload; a data field keeps
its tag, its indicators as one-unit strings, and its (code, data) pairs. -/
def expectedField : FieldInput → ParsedField
  | .control t text => .control t (utf8Decode text)
  | .data t i1 i2 subs => .data t [i1] [i2] (subs.map fun s => ⟨[s.code], s.value⟩)

/-- The directory entries the scan is expected to produce for built fields
laid out from data offset `off`. -/
def expEntries : List BuiltField → Nat → List DirEntry
  | [], _ => []
  | f :: fs, off =>
      ⟨f.tag, some (f.content.length : Int), some (off : Int)⟩ ::
        expEntries fs (off + f.content.length)

/-- The byte stream of a list of records, each encoded by `buildRecord`. -/
def encodeAll (rs : List (List FieldInput)) : List Nat :=
  (rs.map fun fs => buildRecord (fs.map buildField)).flatten

instance {ε α : Type} [DecidableEq ε] [DecidableEq α] : DecidableEq (Except ε α) := fun x y =>
  match x, y with
  | .error a, .error b =>
    if h : a = b then .isTrue (by rw [h]) else .isFalse (fun he => h (by cases he; rfl))
  | .ok a, .ok b =>
    if h : a = b then .isTrue (by rw [h]) else .isFalse (fun he => h (by cases he; rfl))
  | .error _, .ok _ => .isFalse (fun he => Except.noConfusion he)
  | .ok _, .error _ => .isFalse (fun he => Except.noConfusion he)

/-- The `RawField` that extraction is expected to produce for input `f`. -/
def expectedRaw (f : FieldInput) : RawField :=
  ⟨f.tag, utf8Decode (contentCore f), jsLtB (jsParseInt f.tag) 10⟩

/-- The 24-byte leader `buildRecord` synthesizes (when widths fit). -/
def leaderOf (bfs : List BuiltField) : List Nat :=
  padStart 5 (natToString (totalLen bfs)) ++ [110, 97, 109, 32, 97, 50, 50] ++
    padStart 5 (natToString (baseLen bfs)) ++ [32, 97, 32, 52, 53, 48, 48]

/-- The record length `parse` reads at a scan offset: `parseInt` of the first
5 code units of the text-decoded 24-byte leader view. -/
def recordLengthAt (buffer : List Nat) (offset : Nat) : Option Int :=
  jsParseInt ((utf8Decode ((buffer.drop offset).take 24)).take 5)


/-! ## A control field of 10,000 encoded bytes: concrete data for the
width-overflow claims (the encoder widens its directory entry to 13 bytes
with no error, and the decoder then misparses the record) -/

/-- A control field whose text is 9,999 bytes long, so that its encoded
content (text plus field terminator) is exactly 10,000 bytes: one byte past
the 4-digit directory width. Its characters are printable ASCII `x`. -/
def exBigField : FieldInput := .control [48, 48, 49] (List.replicate 9999 120)

/-- The byte buffer `buildRecord` produces for the oversized field. -/
def exBigBuf : List Nat := buildRecord (List.map buildField [exBigField])

/-- The 24-byte leader of `exBigBuf`: `"10039nam a2200038 a 4500"`. -/
def exLeaderBig : List Nat :=
  [49, 48, 48, 51, 57, 110, 97, 109, 32, 97, 50, 50,
   48, 48, 48, 51, 56, 32, 97, 32, 52, 53, 48, 48]

/-- The widened 13-byte directory entry (`"0011000000000"`) plus the
directory terminator: `"001" ++ "10000" ++ "00000" ++ 0x1E`. -/
def exDirBig : List Nat :=
  [48, 48, 49, 49, 48, 48, 48, 48, 48, 48, 48, 48, 48, 30]

/-- The tag a decoded field carries. -/
def parsedTag : ParsedField → List Nat
  | .control t _ => t
  | .data t _ _ _ => t

/-- The first directory entry the scan reads from `exBigBuf`: the widened
entry is truncated at 12 bytes, so its length digits read `1000`. -/
def exEntry1 : DirEntry := ⟨[48, 48, 49], some ((1000 : Nat) : Int), some ((0 : Nat) : Int)⟩

/-- The second, misaligned directory entry the scan reads from `exBigBuf`:
the stray 13th digit, the directory terminator and ten data bytes. -/
def exEntry2 : DirEntry := ⟨[48, 30, 120], none, none⟩

/-! ## Decidability of the well-formedness predicates -/

instance (b : Nat) : Decidable (printableB b) := by
  unfold printableB
  infer_instance

instance (b : Nat) : Decidable (isDigit b) := by
  unfold isDigit
  infer_instance

instance (f : FieldInput) : Decidable (wfInput f) := by
  cases f <;> (unfold wfInput; infer_instance)

instance (fs : List FieldInput) : Decidable (wfRecord fs) := by
  unfold wfRecord
  infer_instance

/-! ## Example inputs for the claims -/

/-- The string "Nineteen Eighty-Four" as ASCII code units. -/
def nineteen : List Nat :=
  [78, 105, 110, 101, 116, 101, 101, 110, 32, 69, 105, 103, 104, 116, 121,
   45, 70, 111, 117, 114]

/-- The spec's concrete scenario: tag 245, indicators `1` `4`, one subfield
`a` = "Nineteen Eighty-Four". -/
def ex245 : List FieldInput := [.data [50, 52, 53] 49 52 [⟨97, nineteen⟩]]

/-- A one-field record (control field 001 = "123") for the truncation claims. -/
def exRec2 : List FieldInput := [.control [48, 48, 49] [49, 50, 51]]

/-- A one-field record (control field 001 = "7") for the fail-soft claim. -/
def exRec5 : List FieldInput := [.control [48, 48, 49] [55]]

/-- Two records for the stream-concatenation claim: a data field 245 and a
control field 005. -/
def exRecs6 : List (List FieldInput) :=
  [[.data [50, 52, 53] 49 48 [⟨97, [80, 114, 105, 100, 101]⟩]],
   [.control [48, 48, 53] [50, 48, 50, 52]]]

/-- A one-field record (control field 008 = "hi") for the leader-invariant
claim. -/
def exRec9 : List FieldInput := [.control [48, 48, 56] [104, 105]]

/-- A 40-byte single-record buffer whose directory region (bytes 24..33,
base address 36) holds one entry `001 0003 00000` and NO field-terminator
byte: leader "00040nam a2200036 a 4500", then the entry, then data "ab" 0x1E,
then the record terminator 0x1D. -/
def exC4Buf : List Nat :=
  [48, 48, 48, 52, 48, 110, 97, 109, 32, 97, 50, 50,
   48, 48, 48, 51, 54, 32, 97, 32, 52, 53, 48, 48,
   48, 48, 49, 48, 48, 48, 51, 48, 48, 48, 48, 48,
   97, 98, 30, 29]

/-! ## Lemmas: text decoding, number rendering and parsing -/

theorem utf8DecodeAux_ascii : ∀ (fuel : Nat) {l : List Nat}, l.length ≤ fuel →
    (∀ b ∈ l, b < 128) → utf8DecodeAux fuel l = l
  | 0, l, hf, _ => by
    have hl : l = [] := by
      cases l with
      | nil => rfl
      | cons x xs => simp at hf
    subst hl
    rfl
  | _ + 1, [], _, _ => rfl
  | fuel + 1, b :: rest, hf, h => by
    have hb : b < 128 := h b (by simp)
    have hf' : rest.length ≤ fuel := by simp at hf; omega
    rw [utf8DecodeAux.eq_def]
    simp only [hb, if_true]
    rw [utf8DecodeAux_ascii fuel hf' fun x hx => h x (List.mem_cons_of_mem _ hx)]

theorem utf8Decode_ascii {l : List Nat} (h : ∀ b ∈ l, b < 128) : utf8Decode l = l :=
  utf8DecodeAux_ascii l.length le_rfl h

theorem digitsVal_replicate_zero (k : Nat) (l : List Nat) :
    digitsVal (List.replicate k 48 ++ l) = digitsVal l := by
  unfold digitsVal
  rw [List.foldl_append]
  congr 1
  induction k with
  | zero => simp
  | succ k ih => simpa [List.replicate_succ] using ih

theorem foldl_msb_map_add48 (l : List Nat) (acc : Nat) :
    List.foldl (fun a c => 10 * a + (c - 48)) acc (l.map (· + 48)) =
      List.foldl (fun a d => 10 * a + d) acc l := by
  induction l generalizing acc with
  | nil => rfl
  | cons d l ih => simp [ih]

theorem foldl_msb_reverse (l : List Nat) (acc : Nat) :
    List.foldl (fun a d => 10 * a + d) acc l.reverse =
      acc * 10 ^ l.length + Nat.ofDigits 10 l := by
  induction l generalizing acc with
  | nil => simp
  | cons d l ih =>
    rw [List.reverse_cons, List.foldl_append, ih, Nat.ofDigits_cons]
    simp [pow_succ]
    ring

theorem natDigits_eq : ∀ {fuel n : Nat}, n ≤ fuel → natDigits fuel n = Nat.digits 10 n
  | 0, n, h => by
    have : n = 0 := by omega
    subst this
    rw [Nat.digits_zero]
    rfl
  | fuel + 1, 0, _ => by
    rw [Nat.digits_zero]
    rfl
  | fuel + 1, m + 1, h => by
    rw [natDigits, natDigits_eq (n := (m + 1) / 10)
      (by have := Nat.div_lt_self (Nat.succ_pos m) (by norm_num : (1:Nat) < 10); omega)]
    rw [Nat.digits_def' (by norm_num : (1:Nat) < 10) (Nat.succ_pos m)]

theorem digitsVal_natToString (n : Nat) : digitsVal (natToString n) = n := by
  by_cases h : n = 0
  · subst h; rfl
  · unfold natToString digitsVal
    rw [if_neg h, natDigits_eq le_rfl, foldl_msb_map_add48, foldl_msb_reverse]
    simp [Nat.ofDigits_digits]

theorem natToString_digits {n : Nat} : ∀ b ∈ natToString n, isDigit b := by
  intro b hb
  unfold natToString at hb
  by_cases h : n = 0
  · rw [if_pos h] at hb
    simp at hb
    simp [hb, isDigit]
  · rw [if_neg h, natDigits_eq le_rfl] at hb
    obtain ⟨d, hd, rfl⟩ := List.mem_map.mp hb
    have : d < 10 := Nat.digits_lt_base (by norm_num) (List.mem_reverse.mp hd)
    constructor <;> omega

theorem natToString_ne_nil (n : Nat) : natToString n ≠ [] := by
  unfold natToString
  by_cases h : n = 0
  · simp [h]
  · rw [if_neg h, natDigits_eq le_rfl]
    simp [Nat.digits_ne_nil_iff_ne_zero.mpr h]

theorem natToString_length_le {n k : Nat} (hk : 0 < k) (h : n < 10 ^ k) :
    (natToString n).length ≤ k := by
  unfold natToString
  by_cases h0 : n = 0
  · simpa [h0] using hk
  · rw [if_neg h0, natDigits_eq le_rfl]
    simp only [List.length_map, List.length_reverse]
    by_contra hlt
    push_neg at hlt
    have h1 : 10 ^ (k + 1) ≤ 10 ^ (Nat.digits 10 n).length :=
      Nat.pow_le_pow_right (by norm_num) hlt
    have h2 : 10 ^ (Nat.digits 10 n).length ≤ 10 * n :=
      Nat.base_pow_length_digits_le 10 n (by norm_num) h0
    have h3 : 10 * 10 ^ k ≤ 10 * n := by
      calc 10 * 10 ^ k = 10 ^ (k + 1) := by ring
      _ ≤ 10 ^ (Nat.digits 10 n).length := h1
      _ ≤ 10 * n := h2
    omega

theorem natToString_length_ge {n k : Nat} (h : 10 ^ k ≤ n) :
    k < (natToString n).length := by
  have h0 : n ≠ 0 :=
    (lt_of_lt_of_le (Nat.pos_pow_of_pos k (by norm_num)) h).ne'
  unfold natToString
  rw [if_neg h0, natDigits_eq le_rfl]
  simp only [List.length_map, List.length_reverse]
  have h2 : n < 10 ^ (Nat.digits 10 n).length := Nat.lt_base_pow_length_digits (by norm_num)
  by_contra hle
  push_neg at hle
  have : 10 ^ (Nat.digits 10 n).length ≤ 10 ^ k := Nat.pow_le_pow_right (by norm_num) hle
  omega

theorem padStart_length {w : Nat} {s : List Nat} (h : s.length ≤ w) :
    (padStart w s).length = w := by
  simp [padStart]
  omega

theorem padStart_digits {w : Nat} {s : List Nat} (h : ∀ b ∈ s, isDigit b) :
    ∀ b ∈ padStart w s, isDigit b := by
  intro b hb
  rcases List.mem_append.mp hb with h1 | h2
  · simp [List.eq_of_mem_replicate h1, isDigit]
  · exact h b h2

theorem digitsVal_padStart (w : Nat) (s : List Nat) :
    digitsVal (padStart w s) = digitsVal s :=
  digitsVal_replicate_zero _ _

theorem digit_not_ws {b : Nat} (h : isDigit b) : jsWhitespace b = false := by
  obtain ⟨h1, h2⟩ := h
  simp [jsWhitespace]
  omega

theorem jsParseInt_digits {l : List Nat} (hne : l ≠ []) (h : ∀ b ∈ l, isDigit b) :
    jsParseInt l = some (digitsVal l : Int) := by
  obtain ⟨c, rest, rfl⟩ := List.exists_cons_of_ne_nil hne
  have hc := h c (by simp)
  have hdw : List.dropWhile jsWhitespace (c :: rest) = c :: rest := by
    rw [List.dropWhile_cons, digit_not_ws hc]
    simp
  unfold jsParseInt
  rw [hdw]
  have hc43 : ¬c = 43 := by obtain ⟨h1, _⟩ := hc; omega
  have hc45 : ¬c = 45 := by obtain ⟨h1, _⟩ := hc; omega
  have htw : List.takeWhile isDigitB (c :: rest) = c :: rest := by
    apply List.takeWhile_eq_self_iff.mpr
    intro x hx
    obtain ⟨hx1, hx2⟩ := h x hx
    simp only [isDigitB, Bool.and_eq_true, decide_eq_true_eq]
    omega
  simp only [if_neg hc43, if_neg hc45]
  unfold jsParseIntDigits
  rw [htw]
  simp

theorem jsParseInt_padded {n w : Nat} (hw : 0 < w) (h : n < 10 ^ w) :
    jsParseInt (padStart w (natToString n)) = some (n : Int) := by
  have hlen : (padStart w (natToString n)).length = w :=
    padStart_length (natToString_length_le hw h)
  have hne : padStart w (natToString n) ≠ [] := by
    intro he
    rw [he] at hlen
    simp at hlen
    omega
  rw [jsParseInt_digits hne (padStart_digits natToString_digits)]
  rw [digitsVal_padStart, digitsVal_natToString]

/-! ## Lemmas: subfield splitting -/

theorem jsSplit_sep_cons (sep : Nat) (l : List Nat) :
    jsSplit sep (sep :: l) = [] :: jsSplit sep l := by
  simp [jsSplit]

theorem jsSplit_append_no_sep {sep : Nat} {w l : List Nat} (hw : ∀ c ∈ w, c ≠ sep)
    {h : List Nat} {t : List (List Nat)} (hl : jsSplit sep l = h :: t) :
    jsSplit sep (w ++ l) = (w ++ h) :: t := by
  induction w with
  | nil => simpa using hl
  | cons c w ih =>
    have hc : c ≠ sep := hw c (by simp)
    have ihw := ih fun x hx => hw x (List.mem_cons_of_mem _ hx)
    rw [List.cons_append, jsSplit, if_neg hc, ihw]
    rfl

theorem jsSplit_flat (subs : List SubfieldInput)
    (h : ∀ s ∈ subs, s.code ≠ 31 ∧ ∀ b ∈ s.value, b ≠ 31) :
    jsSplit 31 (subs.flatMap fun s => 31 :: s.code :: s.value) =
      [] :: subs.map (fun s => s.code :: s.value) := by
  induction subs with
  | nil => rfl
  | cons s subs ih =>
    have hs := h s (by simp)
    have ihs := ih fun x hx => h x (List.mem_cons_of_mem _ hx)
    rw [List.flatMap_cons, List.cons_append, jsSplit_sep_cons]
    have hnosep : ∀ c ∈ s.code :: s.value, c ≠ 31 := by
      intro c hc
      rcases List.mem_cons.mp hc with rfl | hv
      · exact hs.1
      · exact hs.2 c hv
    rw [jsSplit_append_no_sep hnosep ihs]
    simp

theorem processChunks_nonempty {chunks : List (List Nat)}
    (h : ∀ c ∈ chunks, c ≠ []) (i : Nat) :
    processChunks i chunks = chunks.map fun c => ⟨c.take 1, c.drop 1⟩ := by
  induction chunks generalizing i with
  | nil => rfl
  | cons c cs ih =>
    have hc : c ≠ [] := h c (by simp)
    have hlen : 0 < c.length := List.length_pos.mpr hc
    rw [processChunks, if_neg (by intro hand; exact hc hand.2), if_pos hlen]
    rw [ih (fun x hx => h x (List.mem_cons_of_mem _ hx))]
    rfl

theorem subfieldsOf_flat (subs : List SubfieldInput)
    (h : ∀ s ∈ subs, printableB s.code ∧ ∀ b ∈ s.value, printableB b) :
    subfieldsOf (subs.flatMap fun s => 31 :: s.code :: s.value) =
      subs.map fun s => ⟨[s.code], s.value⟩ := by
  unfold subfieldsOf
  have h31 : ∀ s ∈ subs, s.code ≠ 31 ∧ ∀ b ∈ s.value, b ≠ 31 := by
    intro s hs
    obtain ⟨⟨hc, _⟩, hv⟩ := h s hs
    exact ⟨by omega, fun b hb => by have := (hv b hb).1; omega⟩
  rw [jsSplit_flat subs h31]
  rw [processChunks, if_pos ⟨rfl, rfl⟩]
  rw [processChunks_nonempty (by simp) 1]
  simp

/-! ## Lemmas: encoder shapes -/

theorem buildField_tag (f : FieldInput) : (buildField f).tag = f.tag := by
  cases f <;> rfl

theorem buildField_content (f : FieldInput) :
    (buildField f).content = contentCore f ++ [30] := by
  cases f <;> simp [buildField, contentCore]

theorem wf_tag3 {f : FieldInput} (h : wfInput f) :
    f.tag.length = 3 ∧ ∀ b ∈ f.tag, isDigit b := by
  cases f with
  | control t text => exact ⟨h.1, h.2.1⟩
  | data t i1 i2 subs => exact ⟨h.1, h.2.1⟩

theorem wf_content_lt {f : FieldInput} (h : wfInput f) :
    (buildField f).content.length < 10000 := by
  cases f with
  | control t text =>
    have := h.2.2.2
    simp [buildField]
    omega
  | data t i1 i2 subs => exact h.2.2.2.2.2.2

theorem wf_tag_parse {f : FieldInput} (h : wfInput f) :
    jsParseInt f.tag = some (tagNum f.tag : Int) := by
  obtain ⟨h3, hd⟩ := wf_tag3 h
  exact jsParseInt_digits (by intro he; rw [he] at h3; simp at h3) hd

theorem dirEntry_length {f : BuiltField} {off : Nat} (h3 : f.tag.length = 3)
    (hc : f.content.length < 10000) (ho : off < 100000) :
    (dirEntry f off).length = 12 := by
  unfold dirEntry
  rw [List.length_append, List.length_append, h3,
    padStart_length (natToString_length_le (by norm_num) hc),
    padStart_length (natToString_length_le (by norm_num) ho)]

theorem dirEntry_ascii {f : BuiltField} {off : Nat} (hd : ∀ b ∈ f.tag, isDigit b) :
    ∀ b ∈ dirEntry f off, b < 128 := by
  intro b hb
  unfold dirEntry at hb
  rcases List.mem_append.mp hb with hb' | h5
  · rcases List.mem_append.mp hb' with ht | h4
    · obtain ⟨_, _⟩ := hd b ht; omega
    · have := padStart_digits natToString_digits b h4
      obtain ⟨_, _⟩ := this; omega
  · have := padStart_digits natToString_digits b h5
    obtain ⟨_, _⟩ := this; omega

theorem buildDirectory_length {bfs : List BuiltField} {off : Nat}
    (h3 : ∀ f ∈ bfs, f.tag.length = 3) (hc : ∀ f ∈ bfs, f.content.length < 10000)
    (ho : off + (bfs.flatMap (·.content)).length < 100000) :
    (buildDirectory bfs off).length = 12 * bfs.length := by
  induction bfs generalizing off with
  | nil => rfl
  | cons f fs ih =>
    have hoff : off < 100000 := by
      have := ho
      simp [List.flatMap_cons] at this
      omega
    rw [buildDirectory, List.length_append,
      dirEntry_length (h3 f (by simp)) (hc f (by simp)) hoff,
      ih (fun g hg => h3 g (List.mem_cons_of_mem _ hg))
        (fun g hg => hc g (List.mem_cons_of_mem _ hg))
        (by simp [List.flatMap_cons] at ho ⊢; omega)]
    simp [List.length_cons]
    ring

/-! ## Lemmas: the directory scan on encoder output -/

theorem scanDirAux_stop (buffer : List Nat) (fuel i : Nat) :
    scanDirAux buffer i fuel i = [] := by
  cases fuel with
  | zero => rfl
  | succ g => rw [scanDirAux, if_neg (lt_irrefl i)]

theorem scanDirAux_layout :
    ∀ (bfs : List BuiltField) (off i fuel : Nat) (buffer tail : List Nat),
      buffer.drop i = buildDirectory bfs off ++ 30 :: tail →
      (∀ f ∈ bfs, f.tag.length = 3 ∧ (∀ b ∈ f.tag, isDigit b) ∧ f.content.length < 10000) →
      off + (bfs.flatMap (·.content)).length < 100000 →
      bfs.length < fuel →
      scanDirAux buffer (i + 12 * bfs.length) fuel i = expEntries bfs off
  | [], off, i, fuel, buffer, tail, _, _, _, _ => by
    simpa using scanDirAux_stop buffer fuel i
  | f :: fs, off, i, fuel, buffer, tail, hdrop, hw, ho, hfuel => by
    obtain ⟨g, rfl⟩ : ∃ g, fuel = g + 1 := ⟨fuel - 1, by omega⟩
    obtain ⟨h3, hdig, hclen⟩ := hw f (by simp)
    have hflat : ((f :: fs).flatMap fun x => x.content).length =
        f.content.length + ((fs.flatMap fun x => x.content)).length := by
      simp
    have hoff : off < 100000 := by omega
    have hent : (dirEntry f off).length = 12 := dirEntry_length h3 hclen hoff
    have hdrop' : buffer.drop i =
        dirEntry f off ++ (buildDirectory fs (off + f.content.length) ++ 30 :: tail) := by
      rw [hdrop, buildDirectory, List.append_assoc]
    have hblen : buffer.length - i =
        12 + ((buildDirectory fs (off + f.content.length) ++ 30 :: tail).length) := by
      have := congrArg List.length hdrop'
      rw [List.length_drop, List.length_append, hent] at this
      omega
    have hile : i + 13 ≤ buffer.length := by
      have hpos : 0 < (buildDirectory fs (off + f.content.length) ++ 30 :: tail).length := by
        simp
      omega
    obtain ⟨x, y, z, htag⟩ := List.length_eq_three.mp h3
    rw [scanDirAux]
    rw [if_pos (by simp only [List.length_cons]; omega : i < i + 12 * (f :: fs).length)]
    rw [if_neg (by omega : ¬buffer.length < i + 12)]
    have hhead : (buffer.drop i).headD 0 = x := by
      rw [hdrop']
      unfold dirEntry
      rw [htag]
      rfl
    have hx : isDigit x := hdig x (by rw [htag]; simp)
    rw [if_neg (by rw [hhead]; obtain ⟨_, _⟩ := hx; omega)]
    have hslice : (buffer.drop i).take 12 = dirEntry f off := by
      rw [hdrop', List.take_left' hent]
    have hascii : utf8Decode ((buffer.drop i).take 12) = dirEntry f off := by
      rw [hslice, utf8Decode_ascii (dirEntry_ascii hdig)]
    have hp4 : (padStart 4 (natToString f.content.length)).length = 4 :=
      padStart_length (natToString_length_le (by norm_num) hclen)
    have hp5 : (padStart 5 (natToString off)).length = 5 :=
      padStart_length (natToString_length_le (by norm_num) hoff)
    have htake3 : (dirEntry f off).take 3 = f.tag := by
      unfold dirEntry
      rw [List.append_assoc, List.take_left' h3]
    have hlenparse : jsParseInt (((dirEntry f off).drop 3).take 4) =
        some (f.content.length : Int) := by
      unfold dirEntry
      rw [List.append_assoc, List.drop_left' h3, List.take_left' hp4]
      exact jsParseInt_padded (by norm_num) hclen
    have hstartparse : jsParseInt (((dirEntry f off).drop 7).take 5) =
        some (off : Int) := by
      unfold dirEntry
      rw [show f.tag ++ padStart 4 (natToString f.content.length) ++
            padStart 5 (natToString off) =
          (f.tag ++ padStart 4 (natToString f.content.length)) ++
            padStart 5 (natToString off) from rfl,
        List.drop_left' (by rw [List.length_append, h3, hp4]),
        List.take_of_length_le (le_of_eq hp5)]
      exact jsParseInt_padded (by norm_num) hoff
    rw [hascii]
    simp only [htake3, hlenparse, hstartparse]
    have hrec : buffer.drop (i + 12) =
        buildDirectory fs (off + f.content.length) ++ 30 :: tail := by
      rw [← List.drop_drop, hdrop', List.drop_left' hent]
    have hflat' : off + f.content.length +
        ((fs.flatMap fun x => x.content)).length < 100000 := by omega
    have harith : i + 12 * (f :: fs).length = (i + 12) + 12 * fs.length := by
      simp [List.length_cons]
      ring
    rw [harith,
      scanDirAux_layout fs (off + f.content.length) (i + 12) g buffer tail hrec
        (fun x hx => hw x (List.mem_cons_of_mem _ hx)) hflat'
        (by simp at hfuel; omega)]
    rfl

/-! ## Lemmas: field extraction on encoder output -/

theorem jsUint8Array_nat {buffer : List Nat} {o l : Nat} (h : o + l ≤ buffer.length) :
    jsUint8Array buffer (some (o : Int)) (some (l : Int)) =
      .ok ((buffer.drop o).take l) := by
  have h1 : ¬((o : Int) < 0) := by omega
  have h2 : ¬((l : Int) < 0) := by omega
  simp only [jsUint8Array, toIndex, h1, if_false, h2, Int.toNat_natCast]
  rw [if_neg (by omega), if_neg (by omega)]

theorem extractRawField_single {buffer rest : List Nat} {base off : Nat} {f : FieldInput}
    (hdrop : buffer.drop (base + off) = (buildField f).content ++ rest) :
    extractRawField buffer (some (base : Int))
      ⟨(buildField f).tag, some ((buildField f).content.length : Int),
        some ((off : Nat) : Int)⟩ = .ok (expectedRaw f) := by
  have hcontent : (buildField f).content = contentCore f ++ [30] := buildField_content f
  have hclen : (buildField f).content.length = (contentCore f).length + 1 := by
    rw [hcontent]; simp
  have hblen : (buildField f).content.length + rest.length =
      buffer.length - (base + off) := by
    have := congrArg List.length hdrop
    rw [List.length_drop, List.length_append] at this
    omega
  have hbound : base + off + (buildField f).content.length ≤ buffer.length := by
    omega
  have hadd : jsAddOpt (some (base : Int)) (some ((off : Nat) : Int)) =
      some ((base + off : Nat) : Int) := by
    simp [jsAddOpt]
  have hsub : jsSubOpt (some ((buildField f).content.length : Int)) 1 =
      some (((contentCore f).length : Nat) : Int) := by
    simp only [jsSubOpt, Option.map_some']
    rw [hclen]
    congr 1
    push_cast
    ring
  have hview : jsUint8Array buffer (some ((base + off : Nat) : Int))
      (some ((buildField f).content.length : Int)) = .ok ((buildField f).content) := by
    rw [jsUint8Array_nat hbound, hdrop, List.take_left]
  have hview2 : jsUint8Array buffer (some ((base + off : Nat) : Int))
      (some (((contentCore f).length : Nat) : Int)) = .ok (contentCore f) := by
    rw [jsUint8Array_nat (by omega), hdrop, hcontent, List.append_assoc, List.take_left]
  have hidx : jsIndex (buildField f).content
      (some (((contentCore f).length : Nat) : Int)) = some 30 := by
    simp only [jsIndex]
    rw [if_neg (by omega), Int.toNat_natCast, hcontent,
      List.getElem?_append_right (le_refl _)]
    simp
  simp only [extractRawField, hadd, hsub, hview, hidx, hview2, eq_self_iff_true,
    if_true, buildField_tag, expectedRaw]

theorem extractAll_layout :
    ∀ (fs : List FieldInput) (off base : Nat) (buffer suffix : List Nat),
      buffer.drop (base + off) = ((fs.map buildField).flatMap (·.content)) ++ suffix →
      extractAll buffer (some (base : Int)) (expEntries (fs.map buildField) off) =
        .ok (fs.map expectedRaw)
  | [], off, base, buffer, suffix, _ => rfl
  | f :: fs, off, base, buffer, suffix, hdrop => by
    have hdrop' : buffer.drop (base + off) =
        (buildField f).content ++
          (((fs.map buildField).flatMap (·.content)) ++ suffix) := by
      rw [hdrop]
      simp [List.flatMap_cons, List.append_assoc]
    rw [List.map_cons, expEntries, extractAll, extractRawField_single hdrop']
    have hrec : buffer.drop (base + (off + (buildField f).content.length)) =
        ((fs.map buildField).flatMap (·.content)) ++ suffix := by
      rw [show base + (off + (buildField f).content.length) =
          (base + off) + (buildField f).content.length by ring, ← List.drop_drop,
        hdrop', List.drop_left']
      rfl
    rw [extractAll_layout fs (off + (buildField f).content.length) base buffer suffix hrec]
    rfl

/-! ## Lemmas: `processField` on extracted fields -/

theorem processField_expected {f : FieldInput} (h : wfInput f) :
    processField (expectedRaw f) = expectedField f := by
  cases f with
  | control t text =>
    have hparse : jsParseInt t = some (tagNum t : Int) :=
      wf_tag_parse (f := .control t text) h
    have hlt : tagNum t < 10 := h.2.2.1
    unfold expectedRaw processField
    simp only [FieldInput.tag, contentCore]
    rw [hparse]
    have : jsLtB (some (tagNum t : Int)) 10 = true := by
      simp [jsLtB]
      omega
    rw [this, if_pos rfl]
    rfl
  | data t i1 i2 subs =>
    have hparse : jsParseInt t = some (tagNum t : Int) :=
      wf_tag_parse (f := .data t i1 i2 subs) h
    have hge : 10 ≤ tagNum t := h.2.2.1
    have hsubs : ∀ s ∈ subs, printableB s.code ∧ ∀ b ∈ s.value, printableB b :=
      h.2.2.2.2.2.1
    have hi1 : printableB i1 := h.2.2.2.1
    have hi2 : printableB i2 := h.2.2.2.2.1
    unfold expectedRaw processField
    simp only [FieldInput.tag, contentCore]
    rw [hparse]
    have hflag : jsLtB (some (tagNum t : Int)) 10 = false := by
      simp [jsLtB]
      omega
    rw [hflag, if_neg (by simp)]
    have hascii : utf8Decode (i1 :: i2 :: (subs.flatMap fun s => 31 :: s.code :: s.value)) =
        i1 :: i2 :: (subs.flatMap fun s => 31 :: s.code :: s.value) := by
      apply utf8Decode_ascii
      intro b hb
      rcases List.mem_cons.mp hb with rfl | hb
      · obtain ⟨_, _⟩ := hi1; omega
      rcases List.mem_cons.mp hb with rfl | hb
      · obtain ⟨_, _⟩ := hi2; omega
      obtain ⟨s, hs, hmem⟩ := List.mem_flatMap.mp hb
      rcases List.mem_cons.mp hmem with rfl | hmem
      · omega
      rcases List.mem_cons.mp hmem with rfl | hmem
      · obtain ⟨_, _⟩ := (hsubs s hs).1; omega
      · obtain ⟨_, _⟩ := (hsubs s hs).2 b hmem; omega
    rw [hascii]
    simp only [List.take_cons, List.drop_succ_cons, List.drop_zero]
    rw [subfieldsOf_flat subs hsubs]
    rfl

/-! ## Lemmas: `parseRecord` on encoder output -/

theorem wf_dir_hyp {fs : List FieldInput} (hwf : ∀ f ∈ fs, wfInput f) :
    ∀ g ∈ fs.map buildField,
      g.tag.length = 3 ∧ (∀ b ∈ g.tag, isDigit b) ∧ g.content.length < 10000 := by
  intro g hg
  obtain ⟨f, hf, rfl⟩ := List.mem_map.mp hg
  obtain ⟨h3, hd⟩ := wf_tag3 (hwf f hf)
  refine ⟨?_, ?_, wf_content_lt (hwf f hf)⟩
  · rw [buildField_tag]; exact h3
  · rw [buildField_tag]; exact hd

theorem totalLen_ge (bfs : List BuiltField) : 26 ≤ totalLen bfs := by
  unfold totalLen baseLen
  omega

theorem buildRecord_decomp {bfs : List BuiltField}
    (hdirlen : (buildDirectory bfs 0).length = 12 * bfs.length) :
    buildRecord bfs =
      leaderOf bfs ++ ((buildDirectory bfs 0 ++ [30]) ++
        (bfs.flatMap (·.content) ++ [29])) := by
  have e1 : (buildDirectory bfs 0 ++ [30]).length = 12 * bfs.length + 1 := by
    simp [hdirlen]
  have hrec0 : buildRecord bfs =
      (padStart 5 (natToString (24 + (buildDirectory bfs 0 ++ [30]).length +
          (bfs.flatMap (·.content)).length + 1)) ++
        [110, 97, 109, 32, 97, 50, 50] ++
        padStart 5 (natToString (24 + (buildDirectory bfs 0 ++ [30]).length)) ++
        [32, 97, 32, 52, 53, 48, 48]) ++
      (buildDirectory bfs 0 ++ [30]) ++
      bfs.flatMap (·.content) ++ [29] := rfl
  rw [e1] at hrec0
  have hrec1 : buildRecord bfs =
      leaderOf bfs ++ (buildDirectory bfs 0 ++ [30]) ++
        bfs.flatMap (·.content) ++ [29] := by
    rw [hrec0]
    rfl
  rw [hrec1]
  simp [List.append_assoc]

theorem leaderOf_length {bfs : List BuiltField} (htot : totalLen bfs < 100000) :
    (leaderOf bfs).length = 24 := by
  have hbaselt : baseLen bfs < 100000 := by
    unfold totalLen at htot
    omega
  unfold leaderOf
  rw [List.length_append, List.length_append, List.length_append,
    padStart_length (natToString_length_le (by norm_num) htot),
    padStart_length (natToString_length_le (by norm_num) hbaselt)]
  rfl

theorem leaderOf_ascii (bfs : List BuiltField) : ∀ b ∈ leaderOf bfs, b < 128 := by
  intro b hb
  unfold leaderOf at hb
  simp only [List.append_assoc, List.mem_append] at hb
  rcases hb with h | h | h | h
  · obtain ⟨_, _⟩ := padStart_digits natToString_digits b h; omega
  · simp at h; rcases h with rfl | rfl | rfl | rfl | rfl | rfl | rfl <;> norm_num
  · obtain ⟨_, _⟩ := padStart_digits natToString_digits b h; omega
  · simp at h; rcases h with rfl | rfl | rfl | rfl | rfl | rfl | rfl <;> norm_num

theorem buildRecord_length {bfs : List BuiltField}
    (hdirlen : (buildDirectory bfs 0).length = 12 * bfs.length)
    (htot : totalLen bfs < 100000) :
    (buildRecord bfs).length = totalLen bfs := by
  rw [buildRecord_decomp hdirlen, List.length_append, List.length_append,
    List.length_append, List.length_append, leaderOf_length htot, hdirlen]
  unfold totalLen baseLen
  simp
  omega

theorem buildRecord_take24 {bfs : List BuiltField}
    (hdirlen : (buildDirectory bfs 0).length = 12 * bfs.length)
    (htot : totalLen bfs < 100000) :
    (buildRecord bfs).take 24 = leaderOf bfs := by
  rw [buildRecord_decomp hdirlen, List.take_left' (leaderOf_length htot)]

theorem buildRecord_drop24 {bfs : List BuiltField}
    (hdirlen : (buildDirectory bfs 0).length = 12 * bfs.length)
    (htot : totalLen bfs < 100000) :
    (buildRecord bfs).drop 24 =
      buildDirectory bfs 0 ++ 30 :: (bfs.flatMap (·.content) ++ [29]) := by
  rw [buildRecord_decomp hdirlen, List.drop_left' (leaderOf_length htot)]
  simp [List.append_assoc]

theorem leaderOf_parse {bfs : List BuiltField} (htot : totalLen bfs < 100000) :
    jsParseInt (((leaderOf bfs).drop 12).take 5) =
      some ((baseLen bfs : Nat) : Int) := by
  have hbaselt : baseLen bfs < 100000 := by
    unfold totalLen at htot
    omega
  have hpadT : (padStart 5 (natToString (totalLen bfs))).length = 5 :=
    padStart_length (natToString_length_le (by norm_num) htot)
  have hpadB : (padStart 5 (natToString (baseLen bfs))).length = 5 :=
    padStart_length (natToString_length_le (by norm_num) hbaselt)
  have hdropL12 : ((leaderOf bfs).drop 12).take 5 =
      padStart 5 (natToString (baseLen bfs)) := by
    unfold leaderOf
    rw [show padStart 5 (natToString (totalLen bfs)) ++
          [110, 97, 109, 32, 97, 50, 50] ++
          padStart 5 (natToString (baseLen bfs)) ++
          [32, 97, 32, 52, 53, 48, 48] =
        (padStart 5 (natToString (totalLen bfs)) ++
          [110, 97, 109, 32, 97, 50, 50]) ++
          (padStart 5 (natToString (baseLen bfs)) ++
          [32, 97, 32, 52, 53, 48, 48]) by simp [List.append_assoc],
      List.drop_left' (by rw [List.length_append, hpadT]; rfl),
      List.take_left' hpadB]
  rw [hdropL12]
  exact jsParseInt_padded (by norm_num) hbaselt

theorem leaderOf_take5 {bfs : List BuiltField} (htot : totalLen bfs < 100000) :
    jsParseInt ((leaderOf bfs).take 5) = some ((totalLen bfs : Nat) : Int) := by
  have hpadT : (padStart 5 (natToString (totalLen bfs))).length = 5 :=
    padStart_length (natToString_length_le (by norm_num) htot)
  have : (leaderOf bfs).take 5 = padStart 5 (natToString (totalLen bfs)) := by
    unfold leaderOf
    rw [show padStart 5 (natToString (totalLen bfs)) ++
          [110, 97, 109, 32, 97, 50, 50] ++
          padStart 5 (natToString (baseLen bfs)) ++
          [32, 97, 32, 52, 53, 48, 48] =
        padStart 5 (natToString (totalLen bfs)) ++
          ([110, 97, 109, 32, 97, 50, 50] ++
          (padStart 5 (natToString (baseLen bfs)) ++
          [32, 97, 32, 52, 53, 48, 48])) by simp [List.append_assoc],
      List.take_left' hpadT]
  rw [this]
  exact jsParseInt_padded (by norm_num) htot

theorem parseRecord_build {fs : List FieldInput} (hwf : ∀ f ∈ fs, wfInput f)
    (htot : totalLen (fs.map buildField) < 100000) :
    parseRecord (buildRecord (fs.map buildField)) =
      .ok ⟨leaderOf (fs.map buildField), fs.map expectedField⟩ := by
  have hdirh := wf_dir_hyp hwf
  have hflatlt : ((fs.map buildField).flatMap (·.content)).length < 100000 := by
    unfold totalLen baseLen at htot
    omega
  have hdirlen : (buildDirectory (fs.map buildField) 0).length =
      12 * (fs.map buildField).length :=
    buildDirectory_length (fun g hg => (hdirh g hg).1) (fun g hg => (hdirh g hg).2.2)
      (by omega)
  have hbaselt : baseLen (fs.map buildField) < 100000 := by
    unfold totalLen at htot
    omega
  have hbuflen := buildRecord_length hdirlen htot
  have htake24 := buildRecord_take24 hdirlen htot
  have hdrop24 := buildRecord_drop24 hdirlen htot
  have hdropbase : (buildRecord (fs.map buildField)).drop
      (baseLen (fs.map buildField) + 0) =
      ((fs.map buildField).flatMap (·.content)) ++ [29] := by
    have e1 : (buildDirectory (fs.map buildField) 0 ++ [30]).length =
        12 * (fs.map buildField).length + 1 := by
      simp [hdirlen]
    have harith : baseLen (fs.map buildField) + 0 =
        24 + (12 * (fs.map buildField).length + 1) := by
      unfold baseLen; omega
    rw [harith, ← List.drop_drop, hdrop24,
      show buildDirectory (fs.map buildField) 0 ++
          30 :: ((fs.map buildField).flatMap (·.content) ++ [29]) =
        (buildDirectory (fs.map buildField) 0 ++ [30]) ++
          ((fs.map buildField).flatMap (·.content) ++ [29]) by simp [List.append_assoc],
      List.drop_left' e1]
  have hview24 : jsUint8Array (buildRecord (fs.map buildField)) (some 0) (some 24) =
      .ok ((buildRecord (fs.map buildField)).take 24) := by
    have hb : 0 + 24 ≤ (buildRecord (fs.map buildField)).length := by
      rw [hbuflen]
      have := totalLen_ge (fs.map buildField)
      omega
    have h0 := @jsUint8Array_nat (buildRecord (fs.map buildField)) 0 24 hb
    simpa using h0
  have hdecL : utf8Decode (leaderOf (fs.map buildField)) = leaderOf (fs.map buildField) :=
    utf8Decode_ascii (leaderOf_ascii _)
  have hbaseparse := @leaderOf_parse (fs.map buildField) htot
  have hsub1 : jsSubOpt (some ((baseLen (fs.map buildField) : Nat) : Int)) 1 =
      some ((baseLen (fs.map buildField) : Int) - 1) := by
    simp [jsSubOpt]
  have htoNat : ((baseLen (fs.map buildField) : Int) - 1).toNat =
      24 + 12 * (fs.map buildField).length := by
    unfold baseLen
    push_cast
    omega
  have hscan : scanDirectory (buildRecord (fs.map buildField))
      (jsSubOpt (some ((baseLen (fs.map buildField) : Nat) : Int)) 1) 24 =
      expEntries (fs.map buildField) 0 := by
    rw [hsub1]
    show scanDirAux (buildRecord (fs.map buildField))
      ((baseLen (fs.map buildField) : Int) - 1).toNat
      (((baseLen (fs.map buildField) : Int) - 1).toNat + 1) 24 = _
    simp only [htoNat]
    exact scanDirAux_layout (fs.map buildField) 0 24
      (24 + 12 * (fs.map buildField).length + 1) (buildRecord (fs.map buildField))
      ((fs.map buildField).flatMap (·.content) ++ [29]) hdrop24 hdirh (by omega)
      (by omega)
  have hextract : extractAll (buildRecord (fs.map buildField))
      (some ((baseLen (fs.map buildField) : Nat) : Int))
      (expEntries (fs.map buildField) 0) = .ok (fs.map expectedRaw) :=
    extractAll_layout fs 0 (baseLen (fs.map buildField)) _ [29] hdropbase
  have hfields : (fs.map expectedRaw).map processField = fs.map expectedField := by
    rw [List.map_map]
    exact List.map_congr_left fun f hf => processField_expected (hwf f hf)
  simp only [parseRecord, hview24, htake24, hdecL, hbaseparse, hscan, hextract, hfields]

/-! ## Lemmas: the stream loop -/

theorem jsUint8Array_nat_err {buffer : List Nat} {o l : Nat}
    (h : buffer.length < o + l) :
    jsUint8Array buffer (some (o : Int)) (some (l : Int)) = .error () := by
  have h1 : ¬((o : Int) < 0) := by omega
  have h2 : ¬((l : Int) < 0) := by omega
  simp only [jsUint8Array, toIndex, h1, if_false, h2, Int.toNat_natCast]
  by_cases h3 : buffer.length < o
  · rw [if_pos h3]
  · rw [if_neg h3, if_pos (by omega)]

theorem int24_cast : (24 : Int) = ((24 : Nat) : Int) := by norm_num

theorem parseLoop_shift (a b : List Nat) : ∀ (fuel k : Nat),
    parseLoop (a ++ b) (a.length + k) fuel = parseLoop b k fuel
  | 0, _ => rfl
  | fuel + 1, k => by
    rw [parseLoop, parseLoop]
    have hlen : (a ++ b).length = a.length + b.length := List.length_append a b
    by_cases h1 : k < b.length
    case neg => rw [if_neg (by omega), if_neg h1]
    case pos =>
      rw [if_pos (by omega), if_pos h1]
      by_cases h2 : b.length < k + 5
      case pos => rw [if_pos (by omega), if_pos h2]
      case neg =>
        rw [if_neg (by omega), if_neg h2]
        have hdrop : (a ++ b).drop (a.length + k) = b.drop k := List.drop_append k
        have hview : jsUint8Array (a ++ b) (some ((a.length + k : Nat) : Int))
            (some 24) = jsUint8Array b (some ((k : Nat) : Int)) (some 24) := by
          rw [int24_cast]
          by_cases h3 : k + 24 ≤ b.length
          · rw [jsUint8Array_nat (by omega), jsUint8Array_nat h3, hdrop]
          · rw [jsUint8Array_nat_err (by omega), jsUint8Array_nat_err (by omega)]
        rw [hview]
        cases hE : jsUint8Array b (some ((k : Nat) : Int)) (some 24) with
        | error e => rfl
        | ok leaderBytes =>
          cases hP : jsParseInt ((utf8Decode leaderBytes).take 5) with
          | none => simp only [hP]
          | some L =>
            simp only [hP]
            by_cases hL : L ≤ 0
            case pos => rw [if_pos hL, if_pos hL]
            case neg =>
              rw [if_neg hL, if_neg hL]
              by_cases hB : (b.length : Int) < k + L
              case pos =>
                rw [if_pos (by push_cast; omega), if_pos (by omega)]
              case neg =>
                rw [if_neg (by push_cast; omega), if_neg (by omega)]
                rw [hdrop]
                rw [show a.length + k + L.toNat = a.length + (k + L.toNat) by omega]
                rw [parseLoop_shift a b fuel (k + L.toNat)]

theorem buildRecord_length_ge (bfs : List BuiltField) :
    26 ≤ (buildRecord bfs).length := by
  show 26 ≤ (_ ++ _ ++ _ ++ [29]).length
  simp only [List.length_append, List.length_append, List.length_append,
    padStart, List.length_replicate, List.length_cons]
  simp
  omega

set_option maxHeartbeats 4000000 in
theorem parseLoop_cons_record {fs : List FieldInput} (rest : List Nat)
    (hwf : ∀ f ∈ fs, wfInput f) (htot : totalLen (fs.map buildField) < 100000)
    (fuel : Nat) :
    parseLoop (buildRecord (fs.map buildField) ++ rest) 0 (fuel + 1) =
      match parseLoop rest 0 fuel with
      | .error e => .error e
      | .ok rs =>
          .ok (⟨leaderOf (fs.map buildField), fs.map expectedField⟩ :: rs) := by
  have hdirh := wf_dir_hyp hwf
  have hflatlt : ((fs.map buildField).flatMap (·.content)).length < 100000 := by
    unfold totalLen baseLen at htot
    omega
  have hdirlen : (buildDirectory (fs.map buildField) 0).length =
      12 * (fs.map buildField).length :=
    buildDirectory_length (fun g hg => (hdirh g hg).1) (fun g hg => (hdirh g hg).2.2)
      (by omega)
  have hbuflen := buildRecord_length hdirlen htot
  have hge := totalLen_ge (fs.map buildField)
  have htake24 := buildRecord_take24 hdirlen htot
  rw [parseLoop]
  rw [if_pos (by simp only [List.length_append]; omega)]
  rw [if_neg (by simp only [List.length_append]; omega)]
  have hview : jsUint8Array (buildRecord (fs.map buildField) ++ rest)
      (some ((0 : Nat) : Int)) (some 24) =
      .ok (leaderOf (fs.map buildField)) := by
    rw [int24_cast, jsUint8Array_nat (by simp only [List.length_append]; omega)]
    rw [List.drop_zero, List.take_append_of_le_length (by omega), htake24]
  rw [hview]
  have hdec : utf8Decode (leaderOf (fs.map buildField)) = leaderOf (fs.map buildField) :=
    utf8Decode_ascii (leaderOf_ascii _)
  have hparse := @leaderOf_take5 (fs.map buildField) htot
  simp only [hdec, hparse]
  rw [if_neg (by omega)]
  rw [if_neg (by push_cast; simp only [List.length_append]; omega)]
  have hslice : ((buildRecord (fs.map buildField) ++ rest).drop 0).take
      ((totalLen (fs.map buildField) : Int)).toNat = buildRecord (fs.map buildField) := by
    rw [List.drop_zero, Int.toNat_natCast, ← hbuflen, List.take_left]
  rw [hslice, parseRecord_build hwf htot]
  rw [show (0 : Nat) + ((totalLen (fs.map buildField) : Int)).toNat =
      (buildRecord (fs.map buildField)).length + 0 by
    rw [Int.toNat_natCast, hbuflen]; omega]
  rw [parseLoop_shift (buildRecord (fs.map buildField)) rest fuel 0]

theorem parseLoop_stream :
    ∀ (rs : List (List FieldInput)) (fuel : Nat),
      (∀ fs ∈ rs, wfRecord fs) → rs.length < fuel →
      parseLoop (encodeAll rs) 0 fuel =
        .ok (rs.map fun fs => ⟨leaderOf (fs.map buildField), fs.map expectedField⟩)
  | [], fuel, _, hlen => by
    obtain ⟨g, rfl⟩ : ∃ g, fuel = g + 1 := ⟨fuel - 1, by omega⟩
    rw [parseLoop]
    rw [if_neg (by simp [encodeAll])]
    rfl
  | fs :: rs, fuel, hwf, hlen => by
    obtain ⟨g, rfl⟩ : ∃ g, fuel = g + 1 := ⟨fuel - 1, by omega⟩
    have henc : encodeAll (fs :: rs) =
        buildRecord (fs.map buildField) ++ encodeAll rs := by
      simp [encodeAll]
    rw [henc, parseLoop_cons_record (encodeAll rs) (hwf fs (by simp)).1
      (hwf fs (by simp)).2 g]
    rw [parseLoop_stream rs g (fun x hx => hwf x (List.mem_cons_of_mem _ hx))
      (by simp at hlen; omega)]
    rfl

theorem encodeAll_length_ge (rs : List (List FieldInput)) :
    rs.length ≤ (encodeAll rs).length := by
  induction rs with
  | nil => simp [encodeAll]
  | cons fs rs ih =>
    have h1 : encodeAll (fs :: rs) = buildRecord (fs.map buildField) ++ encodeAll rs := by
      simp [encodeAll]
    rw [h1, List.length_append, List.length_cons]
    have := buildRecord_length_ge (fs.map buildField)
    omega

theorem marcParse_stream {rs : List (List FieldInput)}
    (hwf : ∀ fs ∈ rs, wfRecord fs) :
    marcParse (encodeAll rs) =
      .ok (rs.map fun fs => ⟨leaderOf (fs.map buildField), fs.map expectedField⟩) := by
  unfold marcParse
  exact parseLoop_stream rs ((encodeAll rs).length + 1) hwf
    (by have := encodeAll_length_ge rs; omega)

/-! ## Lemmas: fuel insensitivity (termination of the scan) -/

theorem parseLoop_fuel_aux (buffer : List Nat) :
    ∀ (n offset f₁ f₂ : Nat), buffer.length - offset ≤ n →
      buffer.length - offset < f₁ → buffer.length - offset < f₂ →
      parseLoop buffer offset f₁ = parseLoop buffer offset f₂ := by
  intro n
  induction n with
  | zero =>
    intro offset f₁ f₂ h0 h1 h2
    obtain ⟨g₁, rfl⟩ : ∃ g, f₁ = g + 1 := ⟨f₁ - 1, by omega⟩
    obtain ⟨g₂, rfl⟩ : ∃ g, f₂ = g + 1 := ⟨f₂ - 1, by omega⟩
    rw [parseLoop, parseLoop]
    rw [if_neg (by omega), if_neg (by omega)]
  | succ n ih =>
    intro offset f₁ f₂ h0 h1 h2
    obtain ⟨g₁, rfl⟩ : ∃ g, f₁ = g + 1 := ⟨f₁ - 1, by omega⟩
    obtain ⟨g₂, rfl⟩ : ∃ g, f₂ = g + 1 := ⟨f₂ - 1, by omega⟩
    rw [parseLoop, parseLoop]
    by_cases hoff : offset < buffer.length
    case neg => rw [if_neg hoff, if_neg hoff]
    case pos =>
      rw [if_pos hoff, if_pos hoff]
      by_cases h5 : buffer.length < offset + 5
      case pos => rw [if_pos h5, if_pos h5]
      case neg =>
        rw [if_neg h5, if_neg h5]
        cases hE : jsUint8Array buffer (some (offset : Int)) (some 24) with
        | error e => rfl
        | ok leaderBytes =>
          cases hP : jsParseInt ((utf8Decode leaderBytes).take 5) with
          | none => simp only [hP]
          | some L =>
            simp only [hP]
            by_cases hL : L ≤ 0
            case pos => rw [if_pos hL, if_pos hL]
            case neg =>
              rw [if_neg hL, if_neg hL]
              by_cases hB : (buffer.length : Int) < offset + L
              case pos => rw [if_pos hB, if_pos hB]
              case neg =>
                rw [if_neg hB, if_neg hB]
                have harith : buffer.length - (offset + L.toNat) ≤ n ∧
                    buffer.length - (offset + L.toNat) < g₁ ∧
                    buffer.length - (offset + L.toNat) < g₂ := by
                  have hL1 : 1 ≤ L.toNat := by omega
                  have hLe : offset + L.toNat ≤ buffer.length := by omega
                  omega
                rw [ih (offset + L.toNat) g₁ g₂ harith.1 harith.2.1 harith.2.2]

/-- Any two sufficient fuels give the same scan result: the loop needs at
most one iteration per remaining byte because every iteration that does not
stop advances the offset by a positive record length. -/
theorem parseLoop_fuel {buffer : List Nat} {offset f₁ f₂ : Nat}
    (h1 : buffer.length - offset < f₁) (h2 : buffer.length - offset < f₂) :
    parseLoop buffer offset f₁ = parseLoop buffer offset f₂ :=
  parseLoop_fuel_aux buffer (buffer.length - offset) offset f₁ f₂ le_rfl h1 h2

/-! ## Lemmas: the fail-soft break of the stream scan -/

theorem parseLoop_break {buffer : List Nat} {offset : Nat}
    (h24 : offset + 24 ≤ buffer.length)
    (hbad : recordLengthAt buffer offset = none ∨
      (∃ v : Int, recordLengthAt buffer offset = some v ∧ v < 0) ∨
      (∃ v : Int, recordLengthAt buffer offset = some v ∧
        (buffer.length : Int) < offset + v)) :
    ∀ fuel, parseLoop buffer offset fuel = .ok [] := by
  intro fuel
  cases fuel with
  | zero => rfl
  | succ g =>
    rw [parseLoop]
    rw [if_pos (by omega)]
    rw [if_neg (by omega)]
    have hview : jsUint8Array buffer (some (offset : Int)) (some 24) =
        .ok ((buffer.drop offset).take 24) := by
      rw [int24_cast, jsUint8Array_nat (by omega)]
    rw [hview]
    unfold recordLengthAt at hbad
    rcases hbad with hnone | ⟨v, hv, hneg⟩ | ⟨v, hv, hover⟩
    · simp only [hnone]
    · simp only [hv]
      rw [if_pos (by omega)]
    · simp only [hv]
      by_cases hL : v ≤ 0
      · rw [if_pos hL]
      · rw [if_neg hL, if_pos hover]

/-! ## A record with a 10,000-byte field: the encoder widens its directory
entry to 13 bytes with no error, and the decoder then misparses the record -/

theorem buildRecord_unfold (bfs : List BuiltField) :
    buildRecord bfs =
      (padStart 5 (natToString (24 + (buildDirectory bfs 0 ++ [30]).length +
          (bfs.flatMap (·.content)).length + 1)) ++
        [110, 97, 109, 32, 97, 50, 50] ++
        padStart 5 (natToString (24 + (buildDirectory bfs 0 ++ [30]).length)) ++
        [32, 97, 32, 52, 53, 48, 48]) ++
      (buildDirectory bfs 0 ++ [30]) ++
      bfs.flatMap (·.content) ++ [29] := rfl

theorem exBig_content :
    (buildField exBigField).content = List.replicate 9999 120 ++ [30] := rfl

theorem exBig_clen : (buildField exBigField).content.length = 10000 := by
  rw [exBig_content, List.length_append, List.length_replicate]
  rfl

theorem exBig_dir :
    buildDirectory (List.map buildField [exBigField]) 0 ++ [30] = exDirBig := by
  show dirEntry (buildField exBigField) 0 ++ [] ++ [30] = exDirBig
  rw [dirEntry, exBig_clen]
  decide

theorem exBig_data :
    (List.map buildField [exBigField]).flatMap (·.content) =
      List.replicate 9999 120 ++ [30] := by
  show (buildField exBigField).content ++ [] = _
  rw [exBig_content, List.append_nil]

theorem exBig_decomp :
    exBigBuf = exLeaderBig ++
      (exDirBig ++ ((List.replicate 9999 120 ++ [30]) ++ [29])) := by
  unfold exBigBuf
  rw [buildRecord_unfold, exBig_dir, exBig_data]
  have h10000 : (List.replicate 9999 (120:Nat) ++ [30]).length = 10000 := by
    rw [List.length_append, List.length_replicate]
    rfl
  rw [show (exDirBig.length) = 14 from rfl, h10000]
  rw [show (24 : Nat) + 14 + 10000 + 1 = 10039 by norm_num,
    show (24 : Nat) + 14 = 38 by norm_num]
  rw [show padStart 5 (natToString 10039) = [49, 48, 48, 51, 57] by decide,
    show padStart 5 (natToString 38) = [48, 48, 48, 51, 56] by decide]
  rw [show ([49, 48, 48, 51, 57] ++ [110, 97, 109, 32, 97, 50, 50] ++
      [48, 48, 48, 51, 56] ++ [32, 97, 32, 52, 53, 48, 48] : List Nat) =
    exLeaderBig from rfl]
  rw [List.append_assoc, List.append_assoc]

theorem exBig_len : exBigBuf.length = 10039 := by
  rw [exBig_decomp, List.length_append, List.length_append, List.length_append,
    List.length_append, List.length_replicate]
  rfl

theorem exBig_drop24 : exBigBuf.drop 24 =
    exDirBig ++ ((List.replicate 9999 120 ++ [30]) ++ [29]) := by
  rw [exBig_decomp, List.drop_left' (show exLeaderBig.length = 24 from rfl)]

theorem exBig_drop36 : exBigBuf.drop 36 =
    [48, 30] ++ ((List.replicate 9999 120 ++ [30]) ++ [29]) := by
  rw [show (36 : Nat) = 24 + 12 from rfl, ← List.drop_drop, exBig_drop24,
    List.drop_append_eq_append_drop]
  rfl

theorem exBig_drop38 : exBigBuf.drop 38 =
    (List.replicate 9999 120 ++ [30]) ++ [29] := by
  rw [show (38 : Nat) = 24 + 14 from rfl, ← List.drop_drop, exBig_drop24,
    List.drop_left' (show exDirBig.length = 14 from rfl)]

theorem scanDirAux_step {buffer : List Nat} {dirEnd i fuel : Nat} {entry : List Nat}
    (h1 : i < dirEnd) (h2 : ¬buffer.length < i + 12)
    (hent : (buffer.drop i).take 12 = entry)
    (hhead : ¬(buffer.drop i).headD 0 = 30) :
    scanDirAux buffer dirEnd (fuel + 1) i =
      ⟨(utf8Decode entry).take 3, jsParseInt (((utf8Decode entry).drop 3).take 4),
        jsParseInt (((utf8Decode entry).drop 7).take 5)⟩ ::
        scanDirAux buffer dirEnd fuel (i + 12) := by
  rw [scanDirAux, if_pos h1, if_neg h2, if_neg hhead, hent]

theorem scanDirAux_stop_bound {buffer : List Nat} {dirEnd i fuel : Nat}
    (h : ¬i < dirEnd) : scanDirAux buffer dirEnd fuel i = [] := by
  cases fuel with
  | zero => rfl
  | succ g => rw [scanDirAux, if_neg h]

theorem exBig_slice24 : (exBigBuf.drop 24).take 12 =
    [48, 48, 49, 49, 48, 48, 48, 48, 48, 48, 48, 48] := by
  rw [exBig_drop24, List.take_append_of_le_length (by decide)]
  rfl

theorem exBig_slice36 : (exBigBuf.drop 36).take 12 =
    [48, 30, 120, 120, 120, 120, 120, 120, 120, 120, 120, 120] := by
  rw [exBig_drop36, List.take_append_eq_append_take,
    List.take_append_of_le_length (by rw [List.length_append, List.length_replicate]; norm_num),
    List.take_append_of_le_length (by rw [List.length_replicate]; norm_num),
    List.take_replicate]
  decide

theorem exBig_scan : ∀ fuel, scanDirAux exBigBuf 37 (fuel + 2) 24 = [exEntry1, exEntry2] := by
  intro fuel
  rw [scanDirAux_step (by norm_num) (by rw [exBig_len]; norm_num) exBig_slice24
      (by rw [exBig_drop24]; decide),
    scanDirAux_step (by norm_num) (by rw [exBig_len]; norm_num) exBig_slice36
      (by rw [exBig_drop36]; decide),
    scanDirAux_stop_bound (by norm_num)]
  decide


theorem exBig_view24 : jsUint8Array exBigBuf (some 0) (some 24) = .ok exLeaderBig := by
  have h := @jsUint8Array_nat exBigBuf 0 24
    (by rw [exBig_len]; norm_num)
  have ht : exBigBuf.take 24 = exLeaderBig := by
    rw [exBig_decomp, List.take_left' (show exLeaderBig.length = 24 from rfl)]
  rw [List.drop_zero, ht] at h
  simpa using h

theorem exBig_view24' : jsUint8Array exBigBuf (some ((0 : Nat) : Int)) (some 24) =
    .ok exLeaderBig := by
  rw [show ((0 : Nat) : Int) = (0 : Int) by norm_num]
  exact exBig_view24

theorem exBig_decodeLeader : utf8Decode exLeaderBig = exLeaderBig := by decide

theorem exBig_base : jsParseInt ((exLeaderBig.drop 12).take 5) =
    some ((38 : Nat) : Int) := by decide

theorem exBig_scanDirectory :
    scanDirectory exBigBuf (jsSubOpt (some ((38 : Nat) : Int)) 1) 24 =
      [exEntry1, exEntry2] := by
  show scanDirAux exBigBuf ((((38 : Nat) : Int) - 1)).toNat
    (((((38 : Nat) : Int) - 1)).toNat + 1) 24 = _
  rw [show ((((38 : Nat) : Int)) - 1).toNat = 37 by decide]
  rw [show (37 : Nat) + 1 = 36 + 2 from rfl]
  exact exBig_scan 36

theorem exBig_slice1000 : (exBigBuf.drop 38).take 1000 = List.replicate 1000 120 := by
  rw [exBig_drop38,
    List.take_append_of_le_length
      (by rw [List.length_append, List.length_replicate]; norm_num),
    List.take_append_of_le_length (by rw [List.length_replicate]; norm_num),
    List.take_replicate]
  rfl

theorem exBig_extract1 : extractRawField exBigBuf (some ((38 : Nat) : Int)) exEntry1 =
    .ok ⟨[48, 48, 49], List.replicate 1000 120, true⟩ := by
  have hadd : jsAddOpt (some ((38 : Nat) : Int)) (some ((0 : Nat) : Int)) =
      some ((38 : Nat) : Int) := by decide
  have hview : jsUint8Array exBigBuf (some ((38 : Nat) : Int))
      (some ((1000 : Nat) : Int)) = .ok (List.replicate 1000 120) := by
    rw [jsUint8Array_nat (by rw [exBig_len]; norm_num), exBig_slice1000]
  have hsub : jsSubOpt (some ((1000 : Nat) : Int)) 1 = some ((999 : Nat) : Int) := by
    decide
  have hidx : jsIndex (List.replicate 1000 120) (some ((999 : Nat) : Int)) =
      some 120 := by
    simp only [jsIndex]
    rw [if_neg (by omega), Int.toNat_natCast, List.getElem?_replicate,
      if_pos (by norm_num)]
  have hdec1000 : utf8Decode (List.replicate 1000 120) = List.replicate 1000 120 :=
    utf8Decode_ascii (by
      intro b hb
      rw [List.eq_of_mem_replicate hb]
      norm_num)
  have hctrl : jsLtB (jsParseInt [48, 48, 49]) 10 = true := by decide
  show extractRawField exBigBuf (some ((38 : Nat) : Int))
    ⟨[48, 48, 49], some ((1000 : Nat) : Int), some ((0 : Nat) : Int)⟩ = _
  simp only [extractRawField, hadd, hsub, hview, hidx]
  rw [if_neg (by decide : ¬(some (120 : Nat) = some 30))]
  simp only [hview, hdec1000, hctrl]

theorem exBig_extract2 : extractRawField exBigBuf (some ((38 : Nat) : Int)) exEntry2 =
    .ok ⟨[48, 30, 120], [], true⟩ := by
  have hadd : jsAddOpt (some ((38 : Nat) : Int)) none = none := rfl
  have hv : jsUint8Array exBigBuf none none = .ok [] := by
    simp only [jsUint8Array, toIndex]
    rw [if_neg (by omega), if_neg (by omega), List.take_zero]
  have hctrl : jsLtB (jsParseInt [48, 30, 120]) 10 = true := by decide
  show extractRawField exBigBuf (some ((38 : Nat) : Int))
    ⟨[48, 30, 120], none, none⟩ = _
  simp only [extractRawField, hadd, hv, jsSubOpt, Option.map_none', jsIndex]
  rw [if_neg (by decide : ¬(none = some (30 : Nat)))]
  simp only [hv, hctrl]
  rfl

theorem exBig_extractAll : extractAll exBigBuf (some ((38 : Nat) : Int))
    [exEntry1, exEntry2] =
    .ok [⟨[48, 48, 49], List.replicate 1000 120, true⟩, ⟨[48, 30, 120], [], true⟩] := by
  simp only [extractAll, exBig_extract1, exBig_extract2]

theorem exBig_parseRecord : parseRecord exBigBuf =
    .ok ⟨exLeaderBig, [.control [48, 48, 49] (List.replicate 1000 120),
      .control [48, 30, 120] []]⟩ := by
  have htake : exBigBuf.take 24 = exLeaderBig := by
    rw [exBig_decomp, List.take_left' (show exLeaderBig.length = 24 from rfl)]
  simp only [parseRecord, exBig_view24, exBig_decodeLeader, exBig_base,
    exBig_scanDirectory, exBig_extractAll]
  rfl

theorem parseLoop_step_ok {buffer : List Nat} {offset fuel : Nat}
    {leader : List Nat} {L : Int} {r : ParsedRecord}
    (h1 : offset < buffer.length) (h2 : ¬buffer.length < offset + 5)
    (hview : jsUint8Array buffer (some (offset : Int)) (some 24) = .ok leader)
    (hParse : jsParseInt ((utf8Decode leader).take 5) = some L)
    (hL : ¬L ≤ 0) (hB : ¬(buffer.length : Int) < offset + L)
    (hrec : parseRecord ((buffer.drop offset).take L.toNat) = .ok r) :
    parseLoop buffer offset (fuel + 1) =
      match parseLoop buffer (offset + L.toNat) fuel with
      | .error e => .error e
      | .ok rs => .ok (r :: rs) := by
  rw [parseLoop, if_pos h1, if_neg h2, hview]
  simp only [hParse]
  rw [if_neg hL, if_neg hB, hrec]

theorem exBig_marcParse : marcParse exBigBuf =
    .ok [⟨exLeaderBig, [.control [48, 48, 49] (List.replicate 1000 120),
      .control [48, 30, 120] []]⟩] := by
  have hParse : jsParseInt ((utf8Decode exLeaderBig).take 5) =
      some ((10039 : Nat) : Int) := by decide
  have hslice : (exBigBuf.drop 0).take (((10039 : Nat) : Int)).toNat = exBigBuf := by
    rw [List.drop_zero, Int.toNat_natCast, List.take_of_length_le (by rw [exBig_len])]
  have hrec : parseRecord ((exBigBuf.drop 0).take (((10039 : Nat) : Int)).toNat) =
      .ok ⟨exLeaderBig, [.control [48, 48, 49] (List.replicate 1000 120),
        .control [48, 30, 120] []]⟩ := by
    rw [hslice, exBig_parseRecord]
  have hterm : parseLoop exBigBuf (0 + (((10039 : Nat) : Int)).toNat)
      exBigBuf.length = .ok [] := by
    rw [show (0 + (((10039 : Nat) : Int)).toNat) = 10039 by decide, exBig_len,
      show (10039 : Nat) = 10038 + 1 from rfl, parseLoop,
      if_neg (by rw [exBig_len]; norm_num)]
  rw [marcParse,
    parseLoop_step_ok (by rw [exBig_len]; norm_num) (by rw [exBig_len]; norm_num)
      exBig_view24' hParse (by decide) (by rw [exBig_len]; decide) hrec,
    hterm]


/-! ## Further helper lemmas -/

theorem padStart_length_max (w : Nat) (s : List Nat) :
    (padStart w s).length = max w s.length := by
  simp [padStart]
  omega

theorem processChunks_filter :
    ∀ (i : Nat) (cs : List (List Nat)),
      processChunks i cs =
        (cs.filter fun c => !c.isEmpty).map fun c => ⟨c.take 1, c.drop 1⟩
  | _, [] => rfl
  | i, c :: cs => by
    cases c with
    | nil =>
      rw [processChunks]
      by_cases hi : i = 0
      · rw [if_pos ⟨hi, rfl⟩, processChunks_filter (i + 1) cs]
        simp
      · rw [if_neg (by simp [hi]), if_neg (by simp), processChunks_filter (i + 1) cs]
        simp
    | cons b bs =>
      rw [processChunks, if_neg (by simp), if_pos (by simp),
        processChunks_filter (i + 1) cs]
      simp

theorem extractRawField_ok_inv {buffer : List Nat} {base : Option Int}
    {e : DirEntry} {f : RawField}
    (hx : extractRawField buffer base e = .ok f) :
    f.tag = e.tag ∧ f.isControlField = jsLtB (jsParseInt e.tag) 10 := by
  simp only [extractRawField] at hx
  split at hx
  · cases hx
  · split at hx
    · cases hx
    · cases hx
      exact ⟨rfl, rfl⟩

theorem scanDirAux_count : ∀ (fuel : Nat) {buffer : List Nat} {dirEnd i : Nat},
    (dirEnd - i + 11) / 12 < fuel →
    (∀ j, j < dirEnd → i ≤ j → (j - i) % 12 = 0 →
      j + 12 ≤ buffer.length ∧ (buffer.drop j).headD 0 ≠ 30) →
    (scanDirAux buffer dirEnd fuel i).length = (dirEnd - i + 11) / 12
  | 0, _, _, _, hfuel, _ => absurd hfuel (by omega)
  | fuel + 1, buffer, dirEnd, i, hfuel, hterm => by
    by_cases hi : i < dirEnd
    case neg =>
      rw [scanDirAux, if_neg hi]
      simp only [List.length_nil]
      omega
    case pos =>
      obtain ⟨hsafe, hhead⟩ := hterm i hi le_rfl (by omega)
      rw [scanDirAux, if_pos hi, if_neg (by omega), if_neg hhead, List.length_cons,
        scanDirAux_count fuel (by omega)
          (fun j hj1 hj2 hj3 => hterm j hj1 (by omega) (by omega))]
      omega

theorem parseLoop_stream_tail :
    ∀ (rs : List (List FieldInput)) (tail : List Nat) (fuel : Nat),
      (∀ fs ∈ rs, wfRecord fs) →
      (∀ f, parseLoop tail 0 f = .ok []) →
      rs.length < fuel →
      parseLoop (encodeAll rs ++ tail) 0 fuel =
        .ok (rs.map fun fs => ⟨leaderOf (fs.map buildField), fs.map expectedField⟩)
  | [], tail, fuel, _, htail, _ => by
    rw [show encodeAll ([] : List (List FieldInput)) = [] from rfl, List.nil_append,
      htail fuel]
    rfl
  | fs :: rs, tail, fuel, hwf, htail, hlen => by
    obtain ⟨g, rfl⟩ : ∃ g, fuel = g + 1 := ⟨fuel - 1, by omega⟩
    have henc : encodeAll (fs :: rs) ++ tail =
        buildRecord (fs.map buildField) ++ (encodeAll rs ++ tail) := by
      simp [encodeAll]
    rw [henc, parseLoop_cons_record (encodeAll rs ++ tail) (hwf fs (by simp)).1
        (hwf fs (by simp)).2 g,
      parseLoop_stream_tail rs tail g (fun x hx => hwf x (List.mem_cons_of_mem _ hx))
        htail (by simp at hlen; omega)]
    rfl

theorem leaderOf_take5_eq {bfs : List BuiltField} (htot : totalLen bfs < 100000) :
    (leaderOf bfs).take 5 = padStart 5 (natToString (totalLen bfs)) := by
  have hpadT : (padStart 5 (natToString (totalLen bfs))).length = 5 :=
    padStart_length (natToString_length_le (by norm_num) htot)
  unfold leaderOf
  rw [show padStart 5 (natToString (totalLen bfs)) ++
        [110, 97, 109, 32, 97, 50, 50] ++
        padStart 5 (natToString (baseLen bfs)) ++
        [32, 97, 32, 52, 53, 48, 48] =
      padStart 5 (natToString (totalLen bfs)) ++
        ([110, 97, 109, 32, 97, 50, 50] ++
        (padStart 5 (natToString (baseLen bfs)) ++
        [32, 97, 32, 52, 53, 48, 48])) by simp [List.append_assoc],
    List.take_left' hpadT]

theorem leaderOf_drop12_take5_eq {bfs : List BuiltField}
    (htot : totalLen bfs < 100000) :
    ((leaderOf bfs).drop 12).take 5 = padStart 5 (natToString (baseLen bfs)) := by
  have hbaselt : baseLen bfs < 100000 := by
    unfold totalLen at htot
    omega
  have hpadT : (padStart 5 (natToString (totalLen bfs))).length = 5 :=
    padStart_length (natToString_length_le (by norm_num) htot)
  have hpadB : (padStart 5 (natToString (baseLen bfs))).length = 5 :=
    padStart_length (natToString_length_le (by norm_num) hbaselt)
  unfold leaderOf
  rw [show padStart 5 (natToString (totalLen bfs)) ++
        [110, 97, 109, 32, 97, 50, 50] ++
        padStart 5 (natToString (baseLen bfs)) ++
        [32, 97, 32, 52, 53, 48, 48] =
      (padStart 5 (natToString (totalLen bfs)) ++
        [110, 97, 109, 32, 97, 50, 50]) ++
        (padStart 5 (natToString (baseLen bfs)) ++
        [32, 97, 32, 52, 53, 48, 48]) by simp [List.append_assoc],
    List.drop_left' (by rw [List.length_append, hpadT]; rfl),
    List.take_left' hpadB]


/-! ## The claims -/

/-- C1 (corrected): round-trip of `buildRecord`/`marcParse` for well-formed
field lists. Printability and delimiter-freedom alone are NOT enough (see the
counterexample); with the additional width bounds of `wfRecord` (each field's
encoded content under 10,000 bytes and the total record length under 100,000
bytes), decoding the built buffer yields exactly one record whose fields
carry the same tags in order, the same indicators, and the same ordered
(code, data) subfield pairs, as stated by `expectedField`. -/
theorem claim_C1 {fs : List FieldInput} (hwf : wfRecord fs) :
    marcParse (buildRecord (fs.map buildField)) =
      .ok [⟨leaderOf (fs.map buildField), fs.map expectedField⟩] := by
  have h := @marcParse_stream [fs] (by
    intro x hx
    rcases List.mem_singleton.mp hx with rfl
    exact hwf)
  have henc : encodeAll [fs] = buildRecord (fs.map buildField) := by
    simp [encodeAll]
  rw [henc] at h
  simpa using h

/-- Witness for C1: the spec's concrete scenario (tag 245, ind1 `1`,
ind2 `4`, one subfield `a` = "Nineteen Eighty-Four") round-trips. -/
theorem claim_C1_witness :
    wfRecord ex245 ∧
      marcParse (buildRecord (ex245.map buildField)) =
        .ok [⟨leaderOf (ex245.map buildField), ex245.map expectedField⟩] :=
  ⟨by decide, claim_C1 (by decide)⟩

/-- Counterexample to C1 as stated: the control field 001 with 9,999
printable, delimiter-free `x` characters satisfies every hypothesis of the
claim, yet the decoded record does not carry the single input tag 001 — the
widened 13-byte directory entry misaligns the scan, which reads two fields
(tags "001" and "0\x1Ex"). -/
theorem claim_C1_counterexample :
    (marcParse (buildRecord (List.map buildField [exBigField]))).map
        (fun rs => rs.map fun r => r.fields.map parsedTag) ≠
      Except.ok [[FieldInput.tag exBigField]] := by
  rw [show buildRecord (List.map buildField [exBigField]) = exBigBuf from rfl,
    exBig_marcParse]
  decide

/-- C2 (code bug): the claim promises that a valid record followed by
trailing garbage SHORTER than one 24-byte leader decodes to the records of
the valid prefix without raising. The loop guard only checks
`offset + 5 > byteLength` before constructing a 24-byte `Uint8Array` leader
view, so garbage of 5 to 23 bytes makes that view constructor throw a
`RangeError`: the record alone decodes fine, but with 5 garbage bytes
appended the whole parse throws (the embedded view returns `.error`). -/
theorem claim_C2 :
    marcParse (buildRecord (exRec2.map buildField)) =
        .ok [⟨leaderOf (exRec2.map buildField), exRec2.map expectedField⟩] ∧
      marcParse (buildRecord (exRec2.map buildField) ++ List.replicate 5 103) =
        .error () := by
  exact ⟨by decide, by decide⟩

/-- C3 (corrected): `buildRecord` does NOT fail hard on width overflow — it
has no error path at all. Instead `String(n).padStart(w, '0')` widens: a
field whose encoded content is 10,000 bytes or longer, or a cumulative data
offset of 100,000 or more, yields a directory entry LONGER than 12 bytes
(silent widening, not truncation), which desynchronizes the decoder's
fixed 12-byte directory strides. -/
theorem claim_C3 {f : BuiltField} {off : Nat} (h3 : f.tag.length = 3)
    (h : 10000 ≤ f.content.length ∨ 100000 ≤ off) :
    12 < (dirEntry f off).length := by
  rw [dirEntry, List.length_append, List.length_append, h3,
    padStart_length_max, padStart_length_max]
  rcases h with h | h
  · have := natToString_length_ge (n := f.content.length) (k := 4) (by norm_num; omega)
    omega
  · have := natToString_length_ge (n := off) (k := 5) (by norm_num; omega)
    omega

/-- Witness for C3: the 10,000-byte content of the built oversized control
field 001 produces a directory entry longer than 12 bytes. -/
theorem claim_C3_witness :
    (buildField exBigField).tag.length = 3 ∧
      10000 ≤ (buildField exBigField).content.length ∧
      12 < (dirEntry (buildField exBigField) 0).length :=
  ⟨by decide, le_of_eq exBig_clen.symm,
    claim_C3 (by decide) (Or.inl (le_of_eq exBig_clen.symm))⟩

/-- Counterexample to C3 as stated: for the oversized field, `buildRecord`
signals nothing and returns a complete buffer whose directory region is the
WIDENED 13-digit entry `"0011000000000"` (plus terminator) — output was
produced, with widened directory digits, instead of a hard error. -/
theorem claim_C3_counterexample :
    buildRecord (List.map buildField [exBigField]) =
      exLeaderBig ++ (exDirBig ++ ((List.replicate 9999 120 ++ [30]) ++ [29])) := by
  rw [show buildRecord (List.map buildField [exBigField]) = exBigBuf from rfl,
    exBig_decomp]

/-- C4 (corrected): there is no directory-overflow detection. For a
directory span with NO field-terminator byte at any 12-byte stride start
(and enough bytes for each visited stride), the scan reads exactly
`⌈(dirEnd - 24) / 12⌉` entries — it stops at the loop bound
`directoryEnd = baseAddress - 1` (here `d`), by counting, and the record is
then decoded normally rather than treated as truncated/invalid (see the
counterexample for a full normal decode). -/
theorem claim_C4 {buffer : List Nat} {d : Nat}
    (hterm : ∀ j, j < d → 24 ≤ j → (j - 24) % 12 = 0 →
      j + 12 ≤ buffer.length ∧ (buffer.drop j).headD 0 ≠ 30) :
    (scanDirectory buffer (some ((d : Nat) : Int)) 24).length =
      (d - 24 + 11) / 12 := by
  show (scanDirAux buffer ((d : Int)).toNat (((d : Int)).toNat + 1) 24).length = _
  rw [Int.toNat_natCast]
  exact scanDirAux_count (d + 1) (by omega) hterm

/-- Witness for C4: on the 40-byte terminator-less-directory buffer
(base address 36, `d = 35`), the scan reads exactly one entry. -/
theorem claim_C4_witness :
    (∀ j, j < 35 → 24 ≤ j → (j - 24) % 12 = 0 →
        j + 12 ≤ exC4Buf.length ∧ (exC4Buf.drop j).headD 0 ≠ 30) ∧
      (scanDirectory exC4Buf (some ((35 : Nat) : Int)) 24).length =
        (35 - 24 + 11) / 12 :=
  ⟨by decide, claim_C4 (by decide)⟩

/-- Counterexample to C4 as stated: the buffer whose directory region holds
no field terminator anywhere decodes NORMALLY — `parseRecord` returns the
leader and the control field 001 = "ab", with no error and no truncation of
the record. -/
theorem claim_C4_counterexample :
    parseRecord exC4Buf =
      .ok ⟨exC4Buf.take 24, [.control [48, 48, 49] [97, 98]]⟩ := by
  decide

/-- C5 (confirmed): fail-soft leader policy. When the scan (here: having
consumed well-formed records) reaches an offset with at least 24 bytes left
whose 5-unit length substring parses to `NaN` or a negative number, or to a
length extending past the end of the buffer, `parse` stops and returns
exactly the records decoded before that offset, with no exception. -/
theorem claim_C5 {rs : List (List FieldInput)} {tail : List Nat}
    (hwf : ∀ fs ∈ rs, wfRecord fs) (h24 : 24 ≤ tail.length)
    (hbad : recordLengthAt tail 0 = none ∨
      (∃ v : Int, recordLengthAt tail 0 = some v ∧ v < 0) ∨
      (∃ v : Int, recordLengthAt tail 0 = some v ∧ (tail.length : Int) < v)) :
    marcParse (encodeAll rs ++ tail) =
      .ok (rs.map fun fs => ⟨leaderOf (fs.map buildField), fs.map expectedField⟩) := by
  have htail : ∀ f, parseLoop tail 0 f = .ok [] := by
    intro f
    apply @parseLoop_break tail 0 (by omega)
    rcases hbad with h | ⟨v, hv, hneg⟩ | ⟨v, hv, hover⟩
    · exact Or.inl h
    · exact Or.inr (Or.inl ⟨v, hv, hneg⟩)
    · exact Or.inr (Or.inr ⟨v, hv, by push_cast; omega⟩)
  rw [marcParse]
  exact parseLoop_stream_tail rs tail ((encodeAll rs ++ tail).length + 1) hwf htail
    (by have := encodeAll_length_ge rs; rw [List.length_append]; omega)

/-- Witness for C5: one valid record followed by 24 bytes of `A` (whose
length substring "AAAAA" is `NaN`) decodes to exactly that record. -/
theorem claim_C5_witness :
    (∀ fs ∈ [exRec5], wfRecord fs) ∧ 24 ≤ (List.replicate 24 65).length ∧
      recordLengthAt (List.replicate 24 65) 0 = none ∧
      marcParse (encodeAll [exRec5] ++ List.replicate 24 65) =
        .ok ([exRec5].map fun fs =>
          ⟨leaderOf (fs.map buildField), fs.map expectedField⟩) :=
  ⟨by decide, by decide, by decide,
    claim_C5 (by decide) (by decide) (Or.inl (by decide))⟩

/-- C6 (confirmed): stream concatenation. Encoding each record of a
well-formed list and concatenating the buffers, then decoding, yields
exactly the records in their original order (hence exactly N of them). -/
theorem claim_C6 {rs : List (List FieldInput)} (hwf : ∀ fs ∈ rs, wfRecord fs) :
    marcParse (encodeAll rs) =
      .ok (rs.map fun fs => ⟨leaderOf (fs.map buildField), fs.map expectedField⟩) :=
  marcParse_stream hwf

/-- Witness for C6: the two-record stream (data field 245, then control
field 005) decodes to its two records in order. -/
theorem claim_C6_witness :
    (∀ fs ∈ exRecs6, wfRecord fs) ∧
      marcParse (encodeAll exRecs6) =
        .ok (exRecs6.map fun fs =>
          ⟨leaderOf (fs.map buildField), fs.map expectedField⟩) :=
  ⟨by decide, claim_C6 (by decide)⟩

/-- C7 (confirmed): control vs. data classification. A field extracted from
a directory entry with an all-digit tag is classified by the tag's numeric
value: below 10 it is returned as a control field exposing the raw decoded
payload (no indicators, no subfields); at 10 or above it is a data field
whose ind1/ind2 are the payload's first and second code units and whose
subfields are the ordered split of the rest. -/
theorem claim_C7 {buffer : List Nat} {base : Option Int} {e : DirEntry}
    {f : RawField} (hx : extractRawField buffer base e = .ok f)
    (hne : e.tag ≠ []) (hd : ∀ b ∈ e.tag, isDigit b) :
    (tagNum e.tag < 10 → processField f = .control e.tag f.value) ∧
      (10 ≤ tagNum e.tag →
        processField f = .data e.tag (f.value.take 1) ((f.value.drop 1).take 1)
          (subfieldsOf (f.value.drop 2))) := by
  obtain ⟨htag, hflag⟩ := extractRawField_ok_inv hx
  have hparse : jsParseInt e.tag = some (tagNum e.tag : Int) :=
    jsParseInt_digits hne hd
  constructor
  · intro hlt
    have hc : f.isControlField = true := by
      rw [hflag, hparse]
      simp [jsLtB]
      omega
    rw [processField, if_pos hc, htag]
  · intro hge
    have hc : f.isControlField = false := by
      rw [hflag, hparse]
      simp [jsLtB]
      omega
    rw [processField, if_neg (by simp [hc]), htag]

/-- Witness for C7: a 3-byte field "hi" + terminator extracted for the
control tag 001 is processed into a control field exposing "hi". -/
theorem claim_C7_witness :
    extractRawField [104, 105, 30] (some ((0 : Nat) : Int))
        ⟨[48, 48, 49], some ((3 : Nat) : Int), some ((0 : Nat) : Int)⟩ =
      .ok ⟨[48, 48, 49], [104, 105], true⟩ ∧
    tagNum [48, 48, 49] < 10 ∧
    processField ⟨[48, 48, 49], [104, 105], true⟩ =
      .control [48, 48, 49] [104, 105] :=
  ⟨by decide, by decide,
    (@claim_C7 [104, 105, 30] (some ((0 : Nat) : Int))
        ⟨[48, 48, 49], some ((3 : Nat) : Int), some ((0 : Nat) : Int)⟩
        ⟨[48, 48, 49], [104, 105], true⟩
        (by decide) (by decide) (by decide)).1 (by decide)⟩

/-- C8 (confirmed): empty-subfield skip. Splitting a data-field payload
(after the two indicators) on the delimiter 0x1F yields one subfield per
NON-empty chunk — code is the chunk's first code unit, data the rest — and
every emitted subfield has a non-empty code, so a payload beginning with the
delimiter produces no spurious empty-code subfield. -/
theorem claim_C8 (raw : List Nat) :
    subfieldsOf raw =
        ((jsSplit 31 raw).filter fun c => !c.isEmpty).map
          (fun c => ⟨c.take 1, c.drop 1⟩) ∧
      ∀ s ∈ subfieldsOf raw, s.code ≠ [] := by
  have h : subfieldsOf raw =
      ((jsSplit 31 raw).filter fun c => !c.isEmpty).map
        (fun c => ⟨c.take 1, c.drop 1⟩) :=
    processChunks_filter 0 (jsSplit 31 raw)
  refine ⟨h, ?_⟩
  intro s hs
  rw [h] at hs
  obtain ⟨c, hc, rfl⟩ := List.mem_map.mp hs
  have hcne : ¬c.isEmpty := by
    simpa using (List.mem_filter.mp hc).2
  cases c with
  | nil => simp at hcne
  | cons b bs => simp

/-- C9 (corrected): leader invariants of encoder output. The base address
equals 24 + 12·N + 1 only when additionally every tag is exactly 3 bytes
(the directory entry width is 3 + |tag padding-free digits|, see the
counterexample with a 2-byte tag); with 3-byte tags and in-range widths the
leader's bytes 0-4 are the zero-padded exact buffer length and bytes 12-16
the zero-padded `24 + (12·N + 1)`. -/
theorem claim_C9 {bfs : List BuiltField}
    (h3 : ∀ f ∈ bfs, f.tag.length = 3)
    (hc : ∀ f ∈ bfs, f.content.length < 10000)
    (htot : totalLen bfs < 100000) :
    (buildRecord bfs).take 5 =
        padStart 5 (natToString (buildRecord bfs).length) ∧
      ((buildRecord bfs).drop 12).take 5 =
        padStart 5 (natToString (24 + (12 * bfs.length + 1))) := by
  have hdirlen : (buildDirectory bfs 0).length = 12 * bfs.length :=
    buildDirectory_length h3 hc (by unfold totalLen baseLen at htot; omega)
  have hlen := buildRecord_length hdirlen htot
  constructor
  · rw [hlen, buildRecord_decomp hdirlen,
      List.take_append_of_le_length (by rw [leaderOf_length htot]; norm_num),
      leaderOf_take5_eq htot]
  · rw [buildRecord_decomp hdirlen,
      List.drop_append_of_le_length (by rw [leaderOf_length htot]; norm_num),
      List.take_append_of_le_length
        (by rw [List.length_drop, leaderOf_length htot]; norm_num),
      leaderOf_drop12_take5_eq htot]
    rfl

/-- Witness for C9: the one-field record 008 = "hi" (total length 42,
base address 37) satisfies both leader equalities. -/
theorem claim_C9_witness :
    (∀ f ∈ List.map buildField exRec9, f.tag.length = 3) ∧
      (∀ f ∈ List.map buildField exRec9, f.content.length < 10000) ∧
      totalLen (List.map buildField exRec9) < 100000 ∧
      ((buildRecord (List.map buildField exRec9)).take 5 =
          padStart 5 (natToString (buildRecord (List.map buildField exRec9)).length) ∧
        ((buildRecord (List.map buildField exRec9)).drop 12).take 5 =
          padStart 5 (natToString (24 + (12 * (List.map buildField exRec9).length + 1)))) :=
  ⟨by decide, by decide, by decide, claim_C9 (by decide) (by decide) (by decide)⟩

/-- Counterexample to C9 as stated: `buildField('45', '1', ' ', [])` (a legal
call — the tag is numeric and its total length 39 and base address 36 both
fit in 5 digits) produces an 11-byte directory entry, so the leader's base
address reads "00036", not the claimed 24 + 12·1 + 1 = 37. -/
theorem claim_C9_counterexample :
    ((buildRecord (List.map buildField [FieldInput.data [52, 53] 49 32 []])).drop 12).take 5 ≠
      padStart 5 (natToString
        (24 + (12 * (List.map buildField [FieldInput.data [52, 53] 49 32 []]).length + 1))) := by
  decide

/-- C10 (confirmed): termination of the stream scan. The loop needs at most
one fuel unit per buffer byte — every iteration either stops or advances the
offset by a strictly positive record length — so any fuel beyond the buffer
length yields the same (defined) result as `marcParse`'s own supply. -/
theorem claim_C10 {buffer : List Nat} {fuel : Nat} (h : buffer.length < fuel) :
    parseLoop buffer 0 fuel = marcParse buffer := by
  rw [marcParse]
  exact parseLoop_fuel (by omega) (by omega)

/-- Witness for C10: on a 30-byte buffer, fuel 31 computes `marcParse`. -/
theorem claim_C10_witness :
    (List.replicate 30 97).length < 31 ∧
      parseLoop (List.replicate 30 97) 0 31 = marcParse (List.replicate 30 97) :=
  ⟨by decide, claim_C10 (by decide)⟩

end Marc
